import Mathlib

/-!
Shallow embedding of `sparselm/model/_stepwise.py` (class `StepwiseEstimator`)
and proofs about its construction validation, parameter namespacing and
sequential residual fitting.

Modelling conventions:
* Python `str` is modelled as `List Char`; `str.split("__")` / `"__".join`
  are modelled by `pySplit` / `pyJoin` below.
* Python `dict` (insertion ordered, last write wins, in-place key update)
  is modelled as an association list with `dictInsert` / `pyLookup`.
* numpy arrays of floats are modelled as `List ℚ`; the `np.nan` sentinel
  used to pre-fill `coef_` is modelled as `Option.none` entries.
* A sub-estimator is an opaque object: its fitting and prediction
  behaviour are function-valued fields, its hyper-parameter state is a
  mutable dictionary transformed by its own `set_params` function.
* A method that can raise returns `Except String` (construction,
  get_params, set_params, where a raise leaves `self` untouched), while
  `fit` returns the post-call state of `self` together with an optional
  raised error, because `fit` mutates `self` field by field and a raise
  can leave earlier mutations behind.
-/

namespace Sparselm

/-- Python strings, modelled as their list of characters. -/
abbrev PyStr := List Char

/-- Python values stored in parameter dictionaries. -/
inductive PyVal where
  | vNone : PyVal
  | vNum : ℚ → PyVal
  | vStr : PyStr → PyVal
deriving DecidableEq

/-- Numeric vectors (numpy 1-d float arrays). -/
abbrev Vec := List ℚ

/-- Numeric matrices as lists of rows (numpy 2-d float arrays). -/
abbrev Matrix := List (List ℚ)

/-- Column count of a (rectangular) matrix: `X.shape[1]`. -/
def ncols (X : Matrix) : Nat := (X.headD []).length

/-- Column selection `X[:, scope]` by a list of column indices. -/
def colsSel (X : Matrix) (scope : List Nat) : Matrix :=
  X.map (fun row => scope.map (fun j => row.getD j 0))

/-- Elementwise vector subtraction (numpy `-` on equal-length arrays). -/
def vsub (a b : Vec) : Vec := List.zipWith (· - ·) a b

/-- Elementwise vector addition. -/
def vadd (a b : Vec) : Vec := List.zipWith (· + ·) a b

/-- The zero vector of a given length. -/
def vzero (n : Nat) : Vec := List.replicate n 0

/-- Sum of a list of vectors, starting from the zero vector of length n. -/
def vsum (n : Nat) (ps : List Vec) : Vec := ps.foldr vadd (vzero n)

/-- Python `name.split("__")`: greedy left-to-right split on the
separator `__`, keeping empty pieces. -/
def pySplit : List Char → List (List Char)
  | [] => [[]]
  | [c] => [[c]]
  | c1 :: c2 :: rest =>
    if c1 = '_' ∧ c2 = '_' then [] :: pySplit rest
    else
      match pySplit (c2 :: rest) with
      | [] => [[c1]]
      | h :: t => (c1 :: h) :: t

/-- Python `"__".join(parts)`. -/
def pyJoin : List (List Char) → List Char
  | [] => []
  | [p] => p
  | p :: rest => p ++ '_' :: '_' :: pyJoin rest

/-- Python `lst.index(a)`: index of the first occurrence, `none` when the
element is absent (where Python raises ValueError). -/
def pyIndex (a : PyStr) : List PyStr → Option Nat
  | [] => Option.none
  | b :: t => if b = a then some 0 else (pyIndex a t).map (· + 1)

/-- Python `dict.get(k)` on an association list. -/
def pyLookup (k : PyStr) : List (PyStr × PyVal) → Option PyVal
  | [] => Option.none
  | p :: t => if p.1 = k then some p.2 else pyLookup k t

/-- Python `d[k] = v` on an insertion-ordered dictionary: update the
existing entry in place, else append at the end. -/
def dictInsert (d : List (PyStr × PyVal)) (k : PyStr) (v : PyVal) :
    List (PyStr × PyVal) :=
  match d with
  | [] => [(k, v)]
  | p :: t => if p.1 = k then (k, v) :: t else p :: dictInsert t k v

/-- Python `lst[i] = f(lst[i])` (no-op when out of range, which the code
never does on the paths we model). -/
def listModify (l : List α) (i : Nat) (f : α → α) : List α :=
  match l, i with
  | [], _ => []
  | a :: t, 0 => f a :: t
  | a :: t, n + 1 => a :: listModify t n f

/-- Python `sorted` on lists of naturals. -/
def sortNat (l : List Nat) : List Nat := l.insertionSort (· ≤ ·)

/-- An opaque sub-estimator: the capability bundle the composite requires
from each step.  `fitFun`/`predictFun` are its (opaque) learning and
prediction behaviour, `paramState` its mutable hyper-parameter state,
`getParamsFun`/`setParamsFun` its own parameter introspection acting on
that state, `paramNames` its `_get_param_names()`, and `coef_` /
`intercept_` its fitted state (absent before the first fit). -/
structure SubEstimator where
  fit_intercept : Bool
  fitFun : Matrix → Vec → Option Vec → Vec × ℚ
  predictFun : Vec → ℚ → Matrix → Vec
  paramNames : List PyStr
  paramState : List (PyStr × PyVal)
  getParamsFun : List (PyStr × PyVal) → Bool → List (PyStr × PyVal)
  setParamsFun : List (PyStr × PyVal) → List (PyStr × PyVal) → List (PyStr × PyVal)
  coef_ : Option Vec
  intercept_ : Option ℚ

/-- Sub-estimator `fit`: runs its learning function on the scoped design
matrix and target and stores the fitted coefficients and intercept. -/
def SubEstimator.fit (e : SubEstimator) (Xs : Matrix) (y : Vec)
    (w : Option Vec) : SubEstimator :=
  let r := e.fitFun Xs y w
  { e with coef_ := some r.1, intercept_ := some r.2 }

/-- Sub-estimator `predict` from its fitted state. -/
def SubEstimator.predict (e : SubEstimator) (Xs : Matrix) : Vec :=
  e.predictFun (e.coef_.getD []) (e.intercept_.getD 0) Xs

/-- Sub-estimator `get_params(deep)`. -/
def SubEstimator.get_params (e : SubEstimator) (deep : Bool) :
    List (PyStr × PyVal) :=
  e.getParamsFun e.paramState deep

/-- Sub-estimator `set_params(**d)`: transforms its parameter state. -/
def SubEstimator.set_params (e : SubEstimator) (d : List (PyStr × PyVal)) :
    SubEstimator :=
  { e with paramState := e.setParamsFun e.paramState d }

/-- A trivial sub-estimator, used only as the junk value of `asSub` on the
branch that construction has already rejected. -/
def defaultSub : SubEstimator :=
  { fit_intercept := false
    fitFun := fun _ _ _ => ([], 0)
    predictFun := fun _ _ _ => []
    paramNames := []
    paramState := []
    getParamsFun := fun st _ => st
    setParamsFun := fun st _ => st
    coef_ := Option.none
    intercept_ := Option.none }

/-- The composite estimator: the fields of `StepwiseEstimator` set by
`__init__` plus its fitted state. -/
structure StepwiseEstimator where
  step_names : List PyStr
  estimators : List SubEstimator
  estimator_feature_indices : List (List Nat)
  full_scope : List Nat
  coef_ : Option (List (Option ℚ))
  intercept_ : Option ℚ

/-- An object passed as a step: either an ordinary estimator or (illegally)
another StepwiseEstimator, which `__init__` rejects via isinstance. -/
inductive PyEstimator where
  | sub : SubEstimator → PyEstimator
  | stepwise : StepwiseEstimator → PyEstimator

/-- The `isinstance(estimator, StepwiseEstimator)` test. -/
def PyEstimator.isStepwise : PyEstimator → Bool
  | .sub _ => false
  | .stepwise _ => true

/-- Extract the sub-estimator; only reached after the isinstance check has
ruled out the `stepwise` branch, whose value is therefore irrelevant. -/
def PyEstimator.asSub : PyEstimator → SubEstimator
  | .sub e => e
  | .stepwise _ => defaultSub

/-- Error raised when steps and scopes have different lengths. -/
def lenErr : String := "Must specify a list of feature indices for each step!"

/-- Error raised when scopes overlap or are not contiguous from zero. -/
def scopeErr : String :=
  "Estimator feature indices can not overlap and must be continuous!"

/-- Error raised when a step is itself a StepwiseEstimator. -/
def nestedErr : String :=
  "Cannot add a StepwiseEstimator into a CompositeEstimator!"

/-- Error raised by tuple unpacking of zip of no steps. -/
def unpackErr : String := "ValueError: not enough values to unpack"

/-- Error raised at fit time when the full scope does not cover X. -/
def coverErr : String :=
  "All estimator indices does not cover all features!"

/-- Error raised reading the first estimator of an empty tuple. -/
def idxErr : String := "IndexError: tuple index out of range"

/-- Error raised reading intercept_ off a never-fitted estimator. -/
def attrErr : String := "AttributeError: intercept_"

/-- Error raised by list.index when a step name is not registered. -/
def nameErr : String := "ValueError: step name is not in list"

/-- The constructor `StepwiseEstimator.__init__`, following the source
line by line: length check, scope-partition check, isinstance check,
tuple unpacking (which raises on an empty step list), then storing the
fields and forcing `fit_intercept = False` on every step but the first. -/
def construct (steps : List (PyStr × PyEstimator))
    (scopes : List (List Nat)) : Except String StepwiseEstimator :=
  if steps.length ≠ scopes.length then .error lenErr
  else
    let fullScope := sortNat scopes.flatten.dedup
    if fullScope ≠ sortNat scopes.flatten ∨
        fullScope ≠ List.range fullScope.length then
      .error scopeErr
    else if steps.any (fun p => p.2.isStepwise) then .error nestedErr
    else
      match steps with
      | [] => .error unpackErr
      | _ =>
        let ests := steps.map (fun p => p.2.asSub)
        let ests2 :=
          match ests with
          | [] => []
          | e0 :: rest => e0 :: rest.map (fun e => { e with fit_intercept := false })
        .ok { step_names := steps.map Prod.fst
              estimators := ests2
              estimator_feature_indices := scopes
              full_scope := fullScope
              coef_ := Option.none
              intercept_ := Option.none }

/-- The overridden `_get_param_names`: every step name joined to each of
that step's own parameter names by a double underscore, in step order
then native order. -/
def StepwiseEstimator.getParamNames (s : StepwiseEstimator) : List PyStr :=
  ((s.step_names.zip (s.estimators.map (·.paramNames))).map
    (fun p => p.2.map (fun n => p.1 ++ '_' :: '_' :: n))).flatten

/-- The helper `_get_step_param_name`: split a qualified name on `__`,
look the first piece up among the step names, rejoin the rest. -/
def StepwiseEstimator.getStepParamName (s : StepwiseEstimator)
    (name : PyStr) : Except String (Nat × PyStr) :=
  let splitted := pySplit name
  match pyIndex (splitted.headD []) s.step_names with
  | Option.none => .error nameErr
  | some i => .ok (i, pyJoin splitted.tail)

/-- The accumulation loop of `get_params`: walk the flattened names,
route each to its step and read its current value (`dict.get`, giving
Python `None` when absent). -/
def getParamsLoop (s : StepwiseEstimator)
    (estParams : List (List (PyStr × PyVal))) :
    List PyStr → List (PyStr × PyVal) → Except String (List (PyStr × PyVal))
  | [], out => .ok out
  | name :: rest, out =>
    match s.getStepParamName name with
    | .error e => .error e
    | .ok (i, p) =>
      getParamsLoop s estParams rest
        (dictInsert out name ((pyLookup p (estParams.getD i [])).getD PyVal.vNone))

/-- The composite `get_params(deep)`. -/
def StepwiseEstimator.get_params (s : StepwiseEstimator) (deep : Bool) :
    Except String (List (PyStr × PyVal)) :=
  getParamsLoop s (s.estimators.map (·.get_params deep)) s.getParamNames []

/-- The partition loop of `set_params`: route every qualified entry to
the dictionary of its step. -/
def setParamsLoop (s : StepwiseEstimator) :
    List (PyStr × PyVal) → List (List (PyStr × PyVal)) →
    Except String (List (List (PyStr × PyVal)))
  | [], acc => .ok acc
  | (name, v) :: rest, acc =>
    match s.getStepParamName name with
    | .error e => .error e
    | .ok (i, real) => setParamsLoop s rest (listModify acc i (fun d => dictInsert d real v))

/-- The composite `set_params`: fast path on empty input, else build the
per-step dictionaries and call every sub-estimator's own `set_params`
with its dictionary. -/
def StepwiseEstimator.set_params (s : StepwiseEstimator)
    (params : List (PyStr × PyVal)) : Except String StepwiseEstimator :=
  if params = [] then .ok s
  else
    match setParamsLoop s params (List.replicate s.estimators.length []) with
    | .error e => .error e
    | .ok pfe =>
      .ok { s with estimators :=
        (s.estimators.zip pfe).map (fun p => p.1.set_params p.2) }

/-- The numpy fancy assignment `coef[scope] = vals` into the composite
coefficient buffer (entries `none` model the nan prefill): position
`scope[t]` receives value `vals[t]` for each t. -/
def scatter (coef : List (Option ℚ)) (scope : List Nat) (vals : Vec) :
    List (Option ℚ) :=
  match scope, vals with
  | j :: sc, x :: v => scatter (coef.set j (some x)) sc v
  | _, _ => coef

/-- The fitting loop of `StepwiseEstimator.fit`: fit each step on the
running residual restricted to its scope, scatter its coefficients into
the buffer, subtract its prediction from the residual.  Returns the
fitted sub-estimators, the final buffer and the final residual. -/
def fitSteps (X : Matrix) (w : Option Vec) :
    List (SubEstimator × List Nat) → Vec → List (Option ℚ) →
    List SubEstimator × List (Option ℚ) × Vec
  | [], residuals, coef => ([], coef, residuals)
  | (est, scope) :: rest, residuals, coef =>
    let fitted := est.fit (colsSel X scope) residuals w
    let coefNext := scatter coef scope (fitted.coef_.getD [])
    let residualsNext := vsub residuals (fitted.predict (colsSel X scope))
    let r := fitSteps X w rest residualsNext coefNext
    (fitted :: r.1, r.2.1, r.2.2)

/-- The composite `fit`.  Returns the post-call state of `self` together
with the raised error, if any: the scope coverage check precedes every
mutation of `self`, while the `IndexError`/`AttributeError` paths (only
reachable on composites that did not come from `construct`) occur after
`coef_` and the sub-estimators have already been written. -/
def StepwiseEstimator.fit (s : StepwiseEstimator) (X : Matrix) (y : Vec)
    (sample_weight : Option Vec) : StepwiseEstimator × Option String :=
  if s.full_scope ≠ List.range (ncols X) then (s, some coverErr)
  else
    let r := fitSteps X sample_weight
      (s.estimators.zip s.estimator_feature_indices) y
      (List.replicate (ncols X) Option.none)
    let newEsts := r.1 ++ s.estimators.drop r.1.length
    let s1 := { s with estimators := newEsts, coef_ := some r.2.1 }
    match newEsts.head? with
    | Option.none => (s1, some idxErr)
    | some e0 =>
      if e0.fit_intercept then
        match e0.intercept_ with
        | Option.none => (s1, some attrErr)
        | some b => ({ s1 with intercept_ := some b }, Option.none)
      else ({ s1 with intercept_ := some (0 : ℚ) }, Option.none)

/-! ### Helper lemmas about `fit` -/

/-- The second component of `fit` is the coverage error exactly when the
stored full scope differs from the column range of the supplied matrix:
the other raise sites produce different messages. -/
lemma fitCoverIff (s : StepwiseEstimator) (X : Matrix) (y : Vec)
    (w : Option Vec) :
    (s.fit X y w).2 = some coverErr ↔
      s.full_scope ≠ List.range (ncols X) := by
  unfold StepwiseEstimator.fit
  by_cases h : s.full_scope = List.range (ncols X)
  · rw [if_neg (not_not_intro h)]
    constructor
    · intro hc
      exfalso
      dsimp only at hc
      split at hc
      · exact absurd (Option.some.inj hc) (by decide)
      · split at hc
        · split at hc
          · exact absurd (Option.some.inj hc) (by decide)
          · exact Option.noConfusion hc
        · exact Option.noConfusion hc
    · intro hc
      exact absurd h hc
  · rw [if_pos h]
    simp [h]

/-- C6: fit raises the shape/coverage error exactly when the composite's
full scope is not the contiguous range of X's column count; it proceeds
past the check exactly when it is. -/
theorem sw_fit_scope_recheck (s : StepwiseEstimator) (X : Matrix) (y : Vec)
    (w : Option Vec) :
    (s.fit X y w).2 = some coverErr ↔
      s.full_scope ≠ List.range (ncols X) :=
  fitCoverIff s X y w

/-- C10: if fit raises the coverage error, the composite state is exactly
the state before the call, because the check precedes every mutation. -/
theorem sw_fit_error_leaves_state (s : StepwiseEstimator) (X : Matrix)
    (y : Vec) (w : Option Vec)
    (h : (s.fit X y w).2 = some coverErr) :
    (s.fit X y w).1 = s := by
  have hne : s.full_scope ≠ List.range (ncols X) := (fitCoverIff s X y w).mp h
  unfold StepwiseEstimator.fit
  simp only [hne, ne_eq, not_false_eq_true, if_pos, ite_true]

/-- Witness for C10 at a concrete composite whose full scope misses the
second column of a two-column matrix. -/
theorem sw_fit_error_leaves_state_witness :
    (StepwiseEstimator.fit ⟨[], [], [], [0], Option.none, Option.none⟩
        [[1, 2]] [5] Option.none).2 = some coverErr ∧
    (StepwiseEstimator.fit ⟨[], [], [], [0], Option.none, Option.none⟩
        [[1, 2]] [5] Option.none).1 =
      ⟨[], [], [], [0], Option.none, Option.none⟩ :=
  ⟨rfl, sw_fit_error_leaves_state _ _ _ _ rfl⟩

/-- C5: on a successful fit the composite intercept is the first fitted
step's intercept when that step fits an intercept and zero otherwise, and
the returned composite is the same object: its identity fields (names,
scopes, full scope) are unchanged. -/
theorem sw_fit_intercept_assignment (s s' : StepwiseEstimator) (X : Matrix)
    (y : Vec) (w : Option Vec)
    (h : s.fit X y w = (s', Option.none)) :
    (∀ e0, s'.estimators.head? = some e0 →
      (e0.fit_intercept = true → s'.intercept_ = e0.intercept_) ∧
      (e0.fit_intercept = false → s'.intercept_ = some 0)) ∧
    s'.step_names = s.step_names ∧
    s'.estimator_feature_indices = s.estimator_feature_indices ∧
    s'.full_scope = s.full_scope := by
  unfold StepwiseEstimator.fit at h
  by_cases hg : s.full_scope = List.range (ncols X)
  · rw [if_neg (not_not_intro hg)] at h
    dsimp only at h
    split at h
    · exact absurd (congrArg Prod.snd h) (by simp)
    · rename_i e0 heq
      by_cases hfi : e0.fit_intercept = true
      · rw [if_pos hfi] at h
        split at h
        · exact absurd (congrArg Prod.snd h) (by simp)
        · rename_i b hb
          injection h with h1 h2
          subst h1
          refine ⟨?_, rfl, rfl, rfl⟩
          intro e0' he0'
          have : e0' = e0 := by
            rw [heq] at he0'
            exact (Option.some.inj he0').symm
          subst this
          exact ⟨fun _ => by rw [hb], fun hf => absurd hfi (by simp [hf])⟩
      · rw [if_neg hfi] at h
        injection h with h1 h2
        subst h1
        refine ⟨?_, rfl, rfl, rfl⟩
        intro e0' he0'
        have : e0' = e0 := by
          rw [heq] at he0'
          exact (Option.some.inj he0').symm
        subst this
        exact ⟨fun ht => absurd ht hfi, fun _ => rfl⟩
  · rw [if_pos hg] at h
    exact absurd (congrArg Prod.snd h) (by simp)

/-- A concrete one-step sub-estimator for the C5 witness. -/
def subC5 : SubEstimator :=
  { defaultSub with
    fit_intercept := true
    fitFun := fun _ _ _ => ([3], 7)
    predictFun := fun _ _ Xs => Xs.map (fun _ => 0) }

/-- A concrete one-step composite for the C5 witness. -/
def swC5 : StepwiseEstimator :=
  ⟨[['a']], [subC5], [[0]], [0], Option.none, Option.none⟩

/-- Witness for C5: fitting the concrete composite succeeds and its
intercept is the first step's fitted intercept. -/
theorem sw_fit_intercept_assignment_witness :
    (StepwiseEstimator.fit swC5 [[1]] [5] Option.none).2 = Option.none ∧
    (StepwiseEstimator.fit swC5 [[1]] [5] Option.none).1.intercept_ = some 7 := by
  refine ⟨rfl, ?_⟩
  have h := (sw_fit_intercept_assignment swC5
    ((StepwiseEstimator.fit swC5 [[1]] [5] Option.none).1) [[1]] [5]
    Option.none rfl).1
  have h2 := (h { subC5 with coef_ := some [3], intercept_ := some 7 } rfl).1 rfl
  exact h2

/-! ### Fit preserves the fit_intercept flags -/

/-- Fitting a sub-estimator only writes its coef_ and intercept_. -/
lemma subFit_fit_intercept (e : SubEstimator) (Xs : Matrix) (y : Vec)
    (w : Option Vec) : (e.fit Xs y w).fit_intercept = e.fit_intercept := rfl

/-- The loop fits estimators in place, never touching their flags. -/
lemma fitSteps_map_flag (X : Matrix) (w : Option Vec) :
    ∀ (pairs : List (SubEstimator × List Nat)) (y : Vec)
      (c : List (Option ℚ)),
      ((fitSteps X w pairs y c).1).map (·.fit_intercept) =
        pairs.map (·.1.fit_intercept)
  | [], _, _ => rfl
  | (e, sc) :: rest, y, c => by
    simp only [fitSteps, List.map_cons, subFit_fit_intercept,
      fitSteps_map_flag X w rest]

/-- The loop returns one fitted estimator per pair. -/
lemma fitSteps_length (X : Matrix) (w : Option Vec)
    (pairs : List (SubEstimator × List Nat)) (y : Vec)
    (c : List (Option ℚ)) :
    ((fitSteps X w pairs y c).1).length = pairs.length := by
  have h := fitSteps_map_flag X w pairs y c
  have h1 := congrArg List.length h
  simpa using h1

/-- First components of a zip are a prefix of the first list. -/
lemma map_fst_zip_take : ∀ (l1 : List α) (l2 : List β),
    (l1.zip l2).map Prod.fst = l1.take l2.length
  | [], _ => by simp
  | _ :: _, [] => by simp
  | a :: t1, b :: t2 => by
    simp [List.zip_cons_cons, map_fst_zip_take t1 t2]

/-- Dropping at the zip length is the same as dropping at the second
list's length. -/
lemma drop_min_eq (l1 : List α) (n : Nat) :
    l1.drop (min l1.length n) = l1.drop n := by
  rcases le_total l1.length n with hle | hle
  · rw [min_eq_left hle, List.drop_length, List.drop_eq_nil_of_le hle]
  · rw [min_eq_right hle]

/-- The estimator tuple after the loop (fitted prefix plus untouched
remainder) carries exactly the original fit_intercept flags. -/
lemma fitFlagsAux (X : Matrix) (w : Option Vec) (ests : List SubEstimator)
    (scopes : List (List Nat)) (y : Vec) (c : List (Option ℚ)) :
    ((fitSteps X w (ests.zip scopes) y c).1 ++
        ests.drop ((fitSteps X w (ests.zip scopes) y c).1).length).map
      (·.fit_intercept) = ests.map (·.fit_intercept) := by
  rw [List.map_append, fitSteps_map_flag, fitSteps_length, List.length_zip]
  have h1 : (ests.zip scopes).map (fun p => p.1.fit_intercept) =
      (ests.take scopes.length).map (·.fit_intercept) := by
    rw [← map_fst_zip_take ests scopes, List.map_map]
    rfl
  rw [h1, drop_min_eq, ← List.map_append, List.take_append_drop]

/-- Fit never changes any estimator's fit_intercept flag, whether it
succeeds or raises. -/
lemma fit_preserves_flags (s : StepwiseEstimator) (X : Matrix) (y : Vec)
    (w : Option Vec) :
    (s.fit X y w).1.estimators.map (·.fit_intercept) =
      s.estimators.map (·.fit_intercept) := by
  unfold StepwiseEstimator.fit
  by_cases hg : s.full_scope = List.range (ncols X)
  · rw [if_neg (not_not_intro hg)]
    dsimp only
    split
    · exact fitFlagsAux X w s.estimators s.estimator_feature_indices y _
    · split
      · split
        · exact fitFlagsAux X w s.estimators s.estimator_feature_indices y _
        · exact fitFlagsAux X w s.estimators s.estimator_feature_indices y _
      · exact fitFlagsAux X w s.estimators s.estimator_feature_indices y _
  · rw [if_pos hg]

/-- C4: construction forces fit_intercept to false on every step but the
first, leaves the first step entirely unchanged, and the flags are set at
construction only: fit leaves every flag as it found it. -/
theorem sw_construct_fit_intercept (steps : List (PyStr × PyEstimator))
    (scopes : List (List Nat)) (s : StepwiseEstimator)
    (h : construct steps scopes = .ok s) :
    (∀ i e, 0 < i → s.estimators[i]? = some e → e.fit_intercept = false) ∧
    s.estimators.head? = steps.head?.map (fun p => p.2.asSub) ∧
    (∀ X y w, (s.fit X y w).1.estimators.map (·.fit_intercept) =
      s.estimators.map (·.fit_intercept)) := by
  unfold construct at h
  dsimp only at h
  split at h
  · exact Except.noConfusion h
  · split at h
    · exact Except.noConfusion h
    · split at h
      · exact Except.noConfusion h
      · split at h
        · exact Except.noConfusion h
        · rename_i stepsDup hne
          rcases steps with _ | ⟨p0, rest⟩
          · exact absurd rfl hne
          · simp only [List.map_cons] at h
            injection h with h1
            subst h1
            refine ⟨?_, rfl, ?_⟩
            · intro i e hi he
              match i, hi with
              | Nat.succ n, _ =>
                simp only [List.getElem?_cons_succ, List.getElem?_map] at he
                rcases he2 : rest[n]? with _ | a
                · rw [he2] at he
                  exact Option.noConfusion he
                · rw [he2] at he
                  have h3 := (Option.some.inj he).symm
                  rw [h3]
            · intro X y w
              exact fit_preserves_flags _ X y w

/-- The sub-estimator used in construction witnesses: its fit_intercept
starts out true so the forcing is observable. -/
def subTrue : SubEstimator := { defaultSub with fit_intercept := true }

/-- Witness for C4: constructing a two-step composite from estimators
that both fit an intercept leaves the first flag true and forces the
second to false. -/
theorem sw_construct_fit_intercept_witness :
    construct [(['a'], .sub subTrue), (['b'], .sub subTrue)] [[0], [1]] =
      .ok ⟨[['a'], ['b']], [subTrue, { subTrue with fit_intercept := false }],
        [[0], [1]], [0, 1], Option.none, Option.none⟩ ∧
    ({ subTrue with fit_intercept := false } : SubEstimator).fit_intercept
      = false := by
  refine ⟨rfl, ?_⟩
  exact (sw_construct_fit_intercept
    [(['a'], .sub subTrue), (['b'], .sub subTrue)] [[0], [1]]
    ⟨[['a'], ['b']], [subTrue, { subTrue with fit_intercept := false }],
      [[0], [1]], [0, 1], Option.none, Option.none⟩ rfl).1 1
    { subTrue with fit_intercept := false } one_pos rfl

/-! ### The scope-partition check -/

/-- Sorting preserves length. -/
lemma sortNat_length (l : List Nat) : (sortNat l).length = l.length :=
  List.length_insertionSort _ l

/-- The two comparisons of the source's scope check hold together exactly
when the sorted raw concatenation is the contiguous range of its own
length. -/
lemma scopePassIff (l : List Nat) :
    (sortNat l.dedup = sortNat l ∧
      sortNat l.dedup = List.range (sortNat l.dedup).length) ↔
    sortNat l = List.range l.length := by
  constructor
  · rintro ⟨h1, h2⟩
    have hperm : List.Perm l.dedup l := by
      have p1 : List.Perm l.dedup (sortNat l.dedup) :=
        (List.perm_insertionSort _ _).symm
      rw [h1] at p1
      exact p1.trans (List.perm_insertionSort _ _)
    have hlen : l.dedup.length = l.length := hperm.length_eq
    rw [← h1, h2, sortNat_length, hlen]
  · intro h
    have hperm : List.Perm l (List.range l.length) := by
      have p1 : List.Perm l (sortNat l) := (List.perm_insertionSort _ l).symm
      rw [h] at p1
      exact p1
    have hnd : l.Nodup := hperm.nodup_iff.mpr (List.nodup_range _)
    have hd : l.dedup = l := List.dedup_eq_self.mpr hnd
    rw [hd]
    refine ⟨rfl, ?_⟩
    rw [h, List.length_range]

/-- Characterization of the scope error: once the length check passed,
construction raises the scope error exactly when the sorted concatenation
of scopes is not the contiguous range starting at zero. -/
lemma constructScopeErrIff (steps : List (PyStr × PyEstimator))
    (scopes : List (List Nat)) (h : steps.length = scopes.length) :
    construct steps scopes = .error scopeErr ↔
      sortNat scopes.flatten ≠ List.range scopes.flatten.length := by
  unfold construct
  rw [if_neg (not_not_intro h)]
  dsimp only
  by_cases hp : sortNat scopes.flatten.dedup = sortNat scopes.flatten ∧
      sortNat scopes.flatten.dedup =
        List.range (sortNat scopes.flatten.dedup).length
  · have hpass := (scopePassIff scopes.flatten).mp hp
    rw [if_neg (by push_neg; exact hp)]
    simp only [hpass, ne_eq, not_true_eq_false, iff_false]
    intro he
    split at he
    · exact absurd (Except.error.inj he) (by decide)
    · split at he
      · exact absurd (Except.error.inj he) (by decide)
      · exact Except.noConfusion he
  · have hfail : sortNat scopes.flatten ≠ List.range scopes.flatten.length :=
      fun hh => hp ((scopePassIff scopes.flatten).mpr hh)
    rw [if_pos (not_and_or.mp hp)]
    simp only [hfail, ne_eq, not_false_eq_true, iff_true]

/-- C3: with matching lengths, construction passes the scope check (does
not raise the scope error) exactly when the sorted concatenation of all
scope index sequences is the contiguous range starting at zero; any gap,
duplicate, or shifted start raises the scope error. -/
theorem sw_construct_scope_check (steps : List (PyStr × PyEstimator))
    (scopes : List (List Nat)) (h : steps.length = scopes.length) :
    construct steps scopes = .error scopeErr ↔
      sortNat scopes.flatten ≠ List.range scopes.flatten.length :=
  constructScopeErrIff steps scopes h

/-- Witness for C3: a single scope starting at one (a gap at zero) is
rejected with the scope error, and a partition in scrambled order is not
rejected with it. -/
theorem sw_construct_scope_check_witness :
    construct [(['a'], .sub defaultSub)] [[1]] = .error scopeErr ∧
    construct [(['a'], .sub defaultSub)] [[1, 0]] ≠ .error scopeErr := by
  constructor
  · exact (sw_construct_scope_check [(['a'], .sub defaultSub)] [[1]]
      rfl).mpr (by decide)
  · intro hc
    have h2 := (sw_construct_scope_check [(['a'], .sub defaultSub)] [[1, 0]]
      rfl).mp hc
    exact h2 (by decide)

/-- C7 counterexample: a step that is itself a composite, combined with
scopes violating the partition condition, is rejected with the scope
error, not the nested-composite error, because the source checks scopes
before the isinstance loop. -/
theorem sw_construct_order_counterexample :
    construct [(['a'],
      .stepwise ⟨[], [], [], [], Option.none, Option.none⟩)] [[1]] =
        .error scopeErr ∧
    scopeErr ≠ nestedErr :=
  ⟨rfl, by decide⟩

/-- C7 amended: validation order in the source is length check, then
scope-partition check, then nested-composite check; whenever lengths
match and the scopes violate the partition condition, construction fails
with the scope error, nested composites notwithstanding. -/
theorem sw_construct_scope_before_nested (steps : List (PyStr × PyEstimator))
    (scopes : List (List Nat)) (h1 : steps.length = scopes.length)
    (h2 : sortNat scopes.flatten ≠ List.range scopes.flatten.length) :
    construct steps scopes = .error scopeErr :=
  (constructScopeErrIff steps scopes h1).mpr h2

/-- Witness for the amended C7, at an input containing both a nested
composite and a bad scope. -/
theorem sw_construct_scope_before_nested_witness :
    construct [(['a'],
      .stepwise ⟨[], [], [], [], Option.none, Option.none⟩)] [[2, 3]] =
        .error scopeErr :=
  sw_construct_scope_before_nested _ _ rfl (by decide)

/-! ### C1: the running residual equals y minus the sum of earlier
predictions -/

/-- The sequence of per-step predictions produced by the fitting loop:
entry j is the prediction, over its own scope, of step j right after it
was fit on the running residual. -/
def fitPreds (X : Matrix) (w : Option Vec) :
    List (SubEstimator × List Nat) → Vec → List Vec
  | [], _ => []
  | (e, sc) :: rest, y =>
    let fe := e.fit (colsSel X sc) y w
    let p := fe.predict (colsSel X sc)
    p :: fitPreds X w rest (vsub y p)

/-- Subtracting the zero vector of matching length is the identity. -/
lemma vsub_vzero : ∀ a : Vec, vsub a (vzero a.length) = a
  | [] => rfl
  | q :: t => by
    simp only [vzero, vsub, List.length_cons, List.replicate_succ,
      List.zipWith_cons_cons, sub_zero]
    exact congrArg (q :: ·) (vsub_vzero t)

/-- Iterated elementwise subtraction groups into a single subtraction of
the elementwise sum. -/
lemma vsub_vsub : ∀ a b c : Vec, vsub (vsub a b) c = vsub a (vadd b c)
  | [], _, _ => rfl
  | _ :: _, [], _ => rfl
  | _ :: _, _ :: _, [] => rfl
  | q :: t, r :: u, p :: v => by
    simp only [vsub, vadd, List.zipWith_cons_cons, sub_sub]
    exact congrArg _ (vsub_vsub t u v)

/-- Length of an elementwise difference. -/
lemma length_vsub (a b : Vec) : (vsub a b).length = min a.length b.length :=
  List.length_zipWith _ a b

/-- Unfolding the vector sum of a cons. -/
lemma vsum_cons (n : Nat) (p : Vec) (l : List Vec) :
    vsum n (p :: l) = vadd p (vsum n l) := rfl

/-- The vector sum of no vectors is the zero vector. -/
lemma vsum_nil (n : Nat) : vsum n [] = vzero n := rfl

/-- Membership form of getElem? on a zip. -/
lemma getElem?_zip_of : ∀ (A : List α) (B : List β) (i : Nat) (a : α)
    (b : β), A[i]? = some a → B[i]? = some b → (A.zip B)[i]? = some (a, b)
  | [], _, _, _, _, ha, _ => by simp at ha
  | _ :: _, [], _, _, _, _, hb => by simp at hb
  | _ :: A, _ :: B, 0, a, b, ha, hb => by
    simp only [List.getElem?_cons_zero] at ha hb
    simp [List.zip_cons_cons, ha.symm, hb.symm]
    exact ⟨(Option.some.inj ha), (Option.some.inj hb)⟩
  | _ :: A, _ :: B, Nat.succ n, a, b, ha, hb => by
    simp only [List.getElem?_cons_succ] at ha hb
    simpa [List.zip_cons_cons] using getElem?_zip_of A B n a b ha hb

/-- Main loop invariant for C1: the i-th fitted estimator is the i-th
input estimator fit, over its scope, against the initial target minus the
elementwise sum of the first i per-step predictions. -/
lemma fitSteps_fitted_get (X : Matrix) (w : Option Vec) :
    ∀ (pairs : List (SubEstimator × List Nat)) (y : Vec)
      (c : List (Option ℚ)) (i : Nat) (ei : SubEstimator)
      (sci : List Nat),
      pairs[i]? = some (ei, sci) →
      (∀ p ∈ fitPreds X w pairs y, p.length = y.length) →
      (fitSteps X w pairs y c).1[i]? =
        some (ei.fit (colsSel X sci)
          (vsub y (vsum y.length ((fitPreds X w pairs y).take i))) w)
  | [], _, _, i, _, _, hp, _ => by simp at hp
  | (e, sc) :: rest, y, c, 0, ei, sci, hp, _ => by
    simp only [List.getElem?_cons_zero] at hp
    have h1 := Option.some.inj hp
    have he : e = ei := congrArg Prod.fst h1
    have hsc : sc = sci := congrArg Prod.snd h1
    subst he hsc
    simp only [fitSteps, List.getElem?_cons_zero, List.take_zero, vsum_nil]
    rw [vsub_vzero]
  | (e, sc) :: rest, y, c, Nat.succ n, ei, sci, hp, hlen => by
    simp only [List.getElem?_cons_succ] at hp
    have hfp : fitPreds X w ((e, sc) :: rest) y =
        (e.fit (colsSel X sc) y w).predict (colsSel X sc) ::
          fitPreds X w rest
            (vsub y ((e.fit (colsSel X sc) y w).predict (colsSel X sc))) :=
      rfl
    have hp0len :
        ((e.fit (colsSel X sc) y w).predict (colsSel X sc)).length =
          y.length := by
      refine hlen _ ?_
      rw [hfp]
      exact List.mem_cons_self _ _
    have hylen :
        (vsub y ((e.fit (colsSel X sc) y w).predict (colsSel X sc))).length
          = y.length := by
      rw [length_vsub, hp0len, Nat.min_self]
    have hlen2 : ∀ p ∈ fitPreds X w rest
        (vsub y ((e.fit (colsSel X sc) y w).predict (colsSel X sc))),
        p.length =
          (vsub y ((e.fit (colsSel X sc) y w).predict (colsSel X sc))).length := by
      intro p hpmem
      rw [hylen]
      refine hlen _ ?_
      rw [hfp]
      exact List.mem_cons_of_mem _ hpmem
    have IH := fitSteps_fitted_get X w rest
      (vsub y ((e.fit (colsSel X sc) y w).predict (colsSel X sc)))
      (scatter c sc ((e.fit (colsSel X sc) y w).coef_.getD []))
      n ei sci hp hlen2
    rw [hylen] at IH
    simp only [fitSteps, List.getElem?_cons_succ]
    rw [IH, hfp, List.take_succ_cons, vsum_cons, ← vsub_vsub]

/-- The j-th per-step prediction is the j-th fitted estimator's predict
over the j-th scope. -/
lemma fitPreds_get (X : Matrix) (w : Option Vec) :
    ∀ (pairs : List (SubEstimator × List Nat)) (y : Vec)
      (c : List (Option ℚ)) (j : Nat) (p : SubEstimator × List Nat)
      (fj : SubEstimator),
      pairs[j]? = some p →
      (fitSteps X w pairs y c).1[j]? = some fj →
      (fitPreds X w pairs y)[j]? = some (fj.predict (colsSel X p.2))
  | [], _, _, _, _, _, hp, _ => by simp at hp
  | (e, sc) :: rest, y, c, 0, p, fj, hp, hf => by
    simp only [List.getElem?_cons_zero] at hp
    simp only [fitSteps, List.getElem?_cons_zero] at hf
    have h1 := (Option.some.inj hp).symm
    have hf1 : e.fit (colsSel X sc) y w = fj := Option.some.inj hf
    subst h1
    simp only [fitPreds, List.getElem?_cons_zero]
    rw [hf1]
  | (e, sc) :: rest, y, c, Nat.succ n, p, fj, hp, hf => by
    simp only [List.getElem?_cons_succ] at hp
    simp only [fitSteps, List.getElem?_cons_succ] at hf
    simp only [fitPreds, List.getElem?_cons_succ]
    exact fitPreds_get X w rest
      (vsub y ((e.fit (colsSel X sc) y w).predict (colsSel X sc)))
      (scatter c sc ((e.fit (colsSel X sc) y w).coef_.getD []))
      n p fj hp hf

/-- On a successful fit, the composite's estimator tuple is the fitted
loop output followed by whatever zip truncation left untouched. -/
lemma fit_ok_estimators (s s' : StepwiseEstimator) (X : Matrix) (y : Vec)
    (w : Option Vec) (h : s.fit X y w = (s', Option.none)) :
    s'.estimators =
      (fitSteps X w (s.estimators.zip s.estimator_feature_indices) y
        (List.replicate (ncols X) Option.none)).1 ++
      s.estimators.drop
        (fitSteps X w (s.estimators.zip s.estimator_feature_indices) y
          (List.replicate (ncols X) Option.none)).1.length := by
  unfold StepwiseEstimator.fit at h
  by_cases hg : s.full_scope = List.range (ncols X)
  · rw [if_neg (not_not_intro hg)] at h
    dsimp only at h
    split at h
    · exact absurd (congrArg Prod.snd h) (by simp)
    · split at h
      · split at h
        · exact absurd (congrArg Prod.snd h) (by simp)
        · injection h with h1 h2
          subst h1
          rfl
      · injection h with h1 h2
        subst h1
        rfl
  · rw [if_pos hg] at h
    exact absurd (congrArg Prod.snd h) (by simp)

/-- C1: during a successful fit the steps are fit in declared order
against a running residual: step i's fitting target is y minus the
elementwise sum of the predictions (over their own scopes) of steps
0..i-1 already fit in this call, and in particular step 0 is fit against
the raw y.  The prediction list is tied to the output: its j-th entry is
the fitted step j's prediction over scope j. -/
theorem sw_fit_residual_targets (s s' : StepwiseEstimator) (X : Matrix)
    (y : Vec) (w : Option Vec)
    (hfit : s.fit X y w = (s', Option.none))
    (hlen : ∀ p ∈ fitPreds X w
      (s.estimators.zip s.estimator_feature_indices) y, p.length = y.length)
    (i : Nat) (ei : SubEstimator) (sci : List Nat)
    (hei : s.estimators[i]? = some ei)
    (hsci : s.estimator_feature_indices[i]? = some sci) :
    s'.estimators[i]? = some (ei.fit (colsSel X sci)
      (vsub y (vsum y.length
        ((fitPreds X w (s.estimators.zip s.estimator_feature_indices) y).take i)))
      w) ∧
    (i = 0 → s'.estimators[0]? = some (ei.fit (colsSel X sci) y w)) ∧
    (∀ (j : Nat) (pj : SubEstimator × List Nat) (fj : SubEstimator),
      (s.estimators.zip s.estimator_feature_indices)[j]? = some pj →
      s'.estimators[j]? = some fj →
      (fitPreds X w (s.estimators.zip s.estimator_feature_indices) y)[j]? =
        some (fj.predict (colsSel X pj.2))) := by
  have hests := fit_ok_estimators s s' X y w hfit
  have hpairs : (s.estimators.zip s.estimator_feature_indices)[i]? =
      some (ei, sci) := getElem?_zip_of _ _ i ei sci hei hsci
  have hi : i < (s.estimators.zip s.estimator_feature_indices).length :=
    (List.getElem?_eq_some.mp hpairs).1
  have hflen : (fitSteps X w (s.estimators.zip s.estimator_feature_indices)
      y (List.replicate (ncols X) Option.none)).1.length =
      (s.estimators.zip s.estimator_feature_indices).length :=
    fitSteps_length X w _ y _
  have hmain := fitSteps_fitted_get X w
    (s.estimators.zip s.estimator_feature_indices) y
    (List.replicate (ncols X) Option.none) i ei sci hpairs hlen
  have hgetl : s'.estimators[i]? =
      (fitSteps X w (s.estimators.zip s.estimator_feature_indices) y
        (List.replicate (ncols X) Option.none)).1[i]? := by
    rw [hests]
    exact List.getElem?_append_left (by rw [hflen]; exact hi)
  refine ⟨by rw [hgetl, hmain], ?_, ?_⟩
  · intro h0
    subst h0
    rw [hgetl, hmain]
    rw [List.take_zero]
    show some (ei.fit (colsSel X sci) (vsub y (vzero y.length)) w) = _
    rw [vsub_vzero]
  · intro j pj fj hpj hfj
    have hj : j < (s.estimators.zip s.estimator_feature_indices).length :=
      (List.getElem?_eq_some.mp hpj).1
    have hgetj : s'.estimators[j]? =
        (fitSteps X w (s.estimators.zip s.estimator_feature_indices) y
          (List.replicate (ncols X) Option.none)).1[j]? := by
      rw [hests]
      exact List.getElem?_append_left (by rw [hflen]; exact hj)
    rw [hgetj] at hfj
    exact fitPreds_get X w _ y _ j pj fj hpj hfj

/-- A concrete sub-estimator for the C1 witness: it memorizes its fitting
target as its coefficient and predicts that constant. -/
def subC1 : SubEstimator :=
  { defaultSub with
    fitFun := fun _ t _ => (t, 0)
    predictFun := fun c b Xs => Xs.map (fun _ => c.headD 0 + b) }

/-- A concrete two-step composite for the C1 witness. -/
def swC1 : StepwiseEstimator :=
  ⟨[['a'], ['b']], [subC1, subC1], [[0], [1]], [0, 1], Option.none,
    Option.none⟩

/-- Witness for C1: on the two-step composite, fitting succeeds, and the
second step's stored coefficient (its fitting target, by construction of
subC1) is the residual y minus step one's prediction: 10 - 10 = 0. -/
theorem sw_fit_residual_targets_witness :
    (StepwiseEstimator.fit swC1 [[1, 2]] [10] Option.none).2 = Option.none ∧
    ((StepwiseEstimator.fit swC1 [[1, 2]] [10] Option.none).1.estimators[1]?).map
      (fun e => e.coef_) = some (some [0]) := by
  refine ⟨rfl, ?_⟩
  have h := (sw_fit_residual_targets swC1
    ((StepwiseEstimator.fit swC1 [[1, 2]] [10] Option.none).1) [[1, 2]] [10]
    Option.none rfl (by decide) 1 subC1 [1] rfl rfl).1
  rw [h]
  norm_num [swC1, subC1, defaultSub, SubEstimator.fit, SubEstimator.predict,
    fitPreds, colsSel, vsub, vsum, vadd, vzero]

/-! ### C2: coefficient assembly -/

/-- Scattering preserves the buffer length. -/
lemma scatter_length : ∀ (sc : List Nat) (v : Vec) (buf : List (Option ℚ)),
    (scatter buf sc v).length = buf.length
  | [], _, _ => rfl
  | _ :: _, [], _ => rfl
  | j :: sc, x :: v, buf => by
    simp only [scatter]
    rw [scatter_length sc v, List.length_set]

/-- Scattering does not touch positions outside the scope. -/
lemma scatter_getElem?_notMem : ∀ (sc : List Nat) (v : Vec)
    (buf : List (Option ℚ)) (k : Nat), k ∉ sc →
    (scatter buf sc v)[k]? = buf[k]?
  | [], _, _, _, _ => rfl
  | _ :: _, [], _, _, _ => rfl
  | j :: sc, x :: v, buf, k, h => by
    simp only [scatter]
    have hkj : k ≠ j := fun he => h (he ▸ List.mem_cons_self j sc)
    have h2 : k ∉ sc := fun hm => h (List.mem_cons_of_mem j hm)
    rw [scatter_getElem?_notMem sc v _ k h2,
      List.getElem?_set_ne (Ne.symm hkj)]

/-- Scattering writes value t of the coefficient vector at position
`scope[t]`, provided the scope has no duplicates. -/
lemma scatter_getElem?_at : ∀ (sc : List Nat) (v : Vec)
    (buf : List (Option ℚ)) (t j : Nat) (x : ℚ), sc.Nodup →
    sc[t]? = some j → v[t]? = some x → j < buf.length →
    (scatter buf sc v)[j]? = some (some x)
  | [], _, _, t, _, _, _, ht, _, _ => by simp at ht
  | _ :: _, [], _, t, _, _, _, _, hv, _ => by simp at hv
  | j0 :: sc, x0 :: v, buf, 0, j, x, hnd, ht, hv, hj => by
    simp only [List.getElem?_cons_zero] at ht hv
    have hj0 : j0 = j := Option.some.inj ht
    have hx0 : x0 = x := Option.some.inj hv
    subst hj0 hx0
    simp only [scatter]
    rw [scatter_getElem?_notMem sc v _ j0 (List.nodup_cons.mp hnd).1]
    exact List.getElem?_set_eq_of_lt (some x0) hj
  | j0 :: sc, x0 :: v, buf, Nat.succ n, j, x, hnd, ht, hv, hj => by
    simp only [List.getElem?_cons_succ] at ht hv
    simp only [scatter]
    exact scatter_getElem?_at sc v _ n j x (List.nodup_cons.mp hnd).2 ht hv
      (by rw [List.length_set]; exact hj)

/-- The fitting loop preserves the buffer length. -/
lemma fitSteps_coef_length (X : Matrix) (w : Option Vec) :
    ∀ (pairs : List (SubEstimator × List Nat)) (y : Vec)
      (buf : List (Option ℚ)), ((fitSteps X w pairs y buf).2.1).length = buf.length
  | [], _, _ => rfl
  | (e, sc) :: rest, y, buf => by
    simp only [fitSteps]
    rw [fitSteps_coef_length X w rest, scatter_length]

/-- The fitting loop does not touch buffer positions outside every
scope. -/
lemma fitSteps_coef_notMem (X : Matrix) (w : Option Vec) :
    ∀ (pairs : List (SubEstimator × List Nat)) (y : Vec)
      (buf : List (Option ℚ)) (k : Nat), (∀ p ∈ pairs, k ∉ p.2) →
      ((fitSteps X w pairs y buf).2.1)[k]? = buf[k]?
  | [], _, _, _, _ => rfl
  | (e, sc) :: rest, y, buf, k, h => by
    simp only [fitSteps]
    rw [fitSteps_coef_notMem X w rest _ _ k
      (fun p hp => h p (List.mem_cons_of_mem _ hp)),
      scatter_getElem?_notMem sc _ buf k (h (e, sc) (List.mem_cons_self _ _))]

/-- Main buffer invariant for C2: with pairwise-disjoint duplicate-free
scopes lying inside the buffer, the final buffer holds, at position
`scope_i[t]`, exactly the t-th fitted coefficient of step i. -/
lemma fitSteps_coef_get (X : Matrix) (w : Option Vec) :
    ∀ (pairs : List (SubEstimator × List Nat)) (y : Vec)
      (buf : List (Option ℚ)) (i : Nat) (pi : SubEstimator × List Nat)
      (fi : SubEstimator) (t j : Nat) (x : ℚ),
      List.Pairwise (fun p q => p.2.Disjoint q.2) pairs →
      (∀ p ∈ pairs, p.2.Nodup) →
      (∀ p ∈ pairs, ∀ m ∈ p.2, m < buf.length) →
      pairs[i]? = some pi →
      (fitSteps X w pairs y buf).1[i]? = some fi →
      pi.2[t]? = some j →
      (fi.coef_.getD [])[t]? = some x →
      ((fitSteps X w pairs y buf).2.1)[j]? = some (some x)
  | [], _, _, _, _, _, _, _, _, _, _, _, hpi, _, _, _ => by simp at hpi
  | (e, sc) :: rest, y, buf, 0, pi, fi, t, j, x, hdis, hnod, hall, hpi, hfi,
      ht, hx => by
    simp only [List.getElem?_cons_zero] at hpi
    have hpie : pi = (e, sc) := (Option.some.inj hpi).symm
    subst hpie
    simp only [fitSteps, List.getElem?_cons_zero] at hfi ⊢
    have hfie : e.fit (colsSel X sc) y w = fi := Option.some.inj hfi
    have hjsc : j ∈ sc := List.getElem?_mem ht
    have hnotrest : ∀ p ∈ rest, j ∉ p.2 := fun p hp hjp =>
      (List.pairwise_cons.mp hdis).1 p hp hjsc hjp
    rw [fitSteps_coef_notMem X w rest _ _ j hnotrest]
    rw [← hfie] at hx
    exact scatter_getElem?_at sc _ buf t j x
      (hnod (e, sc) (List.mem_cons_self _ _)) ht hx
      (hall (e, sc) (List.mem_cons_self _ _) j hjsc)
  | (e, sc) :: rest, y, buf, Nat.succ n, pi, fi, t, j, x, hdis, hnod, hall,
      hpi, hfi, ht, hx => by
    simp only [List.getElem?_cons_succ] at hpi
    simp only [fitSteps, List.getElem?_cons_succ] at hfi ⊢
    exact fitSteps_coef_get X w rest _ _ n pi fi t j x
      (List.pairwise_cons.mp hdis).2
      (fun p hp => hnod p (List.mem_cons_of_mem _ hp))
      (fun p hp m hm => by
        rw [scatter_length]
        exact hall p (List.mem_cons_of_mem _ hp) m hm)
      hpi hfi ht hx

/-- Pairwise relations on second components transfer to a zip. -/
lemma pairwise_zip_snd {R : List Nat → List Nat → Prop} :
    ∀ (A : List SubEstimator) (B : List (List Nat)), List.Pairwise R B →
      List.Pairwise (fun p q => R p.2 q.2) (A.zip B)
  | [], _, _ => List.Pairwise.nil
  | _ :: _, [], _ => List.Pairwise.nil
  | a :: A, b :: B, h => by
    rw [List.zip_cons_cons]
    exact List.Pairwise.cons
      (fun q hq => (List.pairwise_cons.mp h).1 q.2 (List.of_mem_zip hq).2)
      (pairwise_zip_snd A B (List.pairwise_cons.mp h).2)

/-- Reading the composite coefficient buffer at the positions of a
scope (the value of the slice `coef_[scope]`). -/
def selOpt (buf : List (Option ℚ)) (sc : List Nat) : List (Option ℚ) :=
  sc.map (fun j => buf.getD j Option.none)

/-- Fields of a successfully constructed composite, together with the
facts recorded by the passed validation checks. -/
lemma construct_ok_fields (steps : List (PyStr × PyEstimator))
    (scopes : List (List Nat)) (s : StepwiseEstimator)
    (h : construct steps scopes = .ok s) :
    s.estimator_feature_indices = scopes ∧
    s.full_scope = sortNat scopes.flatten.dedup ∧
    sortNat scopes.flatten.dedup = sortNat scopes.flatten ∧
    sortNat scopes.flatten.dedup =
      List.range (sortNat scopes.flatten.dedup).length ∧
    s.estimators.length = scopes.length := by
  unfold construct at h
  dsimp only at h
  split at h
  · exact Except.noConfusion h
  · rename_i hlenne
    split at h
    · exact Except.noConfusion h
    · rename_i hscope
      split at h
      · exact Except.noConfusion h
      · split at h
        · exact Except.noConfusion h
        · rename_i stepsDup hne
          rcases steps with _ | ⟨p0, rest⟩
          · exact absurd rfl hne
          · simp only [List.map_cons] at h
            injection h with h1
            subst h1
            have hsc := not_or.mp hscope
            refine ⟨rfl, rfl, not_not.mp hsc.1, not_not.mp hsc.2, ?_⟩
            have hlen2 : (p0 :: rest).length = scopes.length :=
              not_not.mp hlenne
            simp only [List.length_cons, List.length_map]
            simpa using hlen2

/-- On a successful fit the composite coefficient field holds the final
loop buffer, and the coverage guard held. -/
lemma fit_ok_coef (s s' : StepwiseEstimator) (X : Matrix) (y : Vec)
    (w : Option Vec) (h : s.fit X y w = (s', Option.none)) :
    s'.coef_ = some ((fitSteps X w
      (s.estimators.zip s.estimator_feature_indices) y
      (List.replicate (ncols X) Option.none)).2.1) ∧
    s.full_scope = List.range (ncols X) := by
  unfold StepwiseEstimator.fit at h
  by_cases hg : s.full_scope = List.range (ncols X)
  · rw [if_neg (not_not_intro hg)] at h
    dsimp only at h
    split at h
    · exact absurd (congrArg Prod.snd h) (by simp)
    · split at h
      · split at h
        · exact absurd (congrArg Prod.snd h) (by simp)
        · injection h with h1 h2
          subst h1
          exact ⟨rfl, hg⟩
      · injection h with h1 h2
        subst h1
        exact ⟨rfl, hg⟩
  · rw [if_pos hg] at h
    exact absurd (congrArg Prod.snd h) (by simp)

/-- C2: after a successful fit of a constructed composite (with each
fitted coefficient vector as long as its scope, as numpy's assignment
demands), the composite coefficient vector has one entry per feature,
its slice at scope i equals step i's own fitted coefficients, and no
entry still holds the nan sentinel. -/
theorem sw_fit_coef_assembly (steps : List (PyStr × PyEstimator))
    (scopes : List (List Nat)) (s s' : StepwiseEstimator) (X : Matrix)
    (y : Vec) (w : Option Vec)
    (hcon : construct steps scopes = .ok s)
    (hfit : s.fit X y w = (s', Option.none))
    (hclen : ∀ (i : Nat) (e : SubEstimator) (sc : List Nat),
      s'.estimators[i]? = some e →
      s.estimator_feature_indices[i]? = some sc →
      (e.coef_.getD []).length = sc.length) :
    ∃ C : List (Option ℚ), s'.coef_ = some C ∧ C.length = ncols X ∧
      (∀ (i : Nat) (e : SubEstimator) (sc : List Nat),
        s'.estimators[i]? = some e →
        s.estimator_feature_indices[i]? = some sc →
        selOpt C sc = (e.coef_.getD []).map some) ∧
      (∀ k, k < ncols X → (C.getD k Option.none).isSome = true) := by
  obtain ⟨hf1, hf2, hf3, hf4, hf5⟩ := construct_ok_fields steps scopes s hcon
  obtain ⟨hcoef, hguard⟩ := fit_ok_coef s s' X y w hfit
  have hests := fit_ok_estimators s s' X y w hfit
  have hpass : sortNat scopes.flatten = List.range scopes.flatten.length :=
    (scopePassIff scopes.flatten).mp ⟨hf3, hf4⟩
  have hfull : s.full_scope = List.range scopes.flatten.length := by
    rw [hf2, hf3, hpass]
  have hflen_ncols : scopes.flatten.length = ncols X := by
    have h1 := hfull.symm.trans hguard
    have h2 := congrArg List.length h1
    simpa [List.length_range] using h2
  have hndflat : scopes.flatten.Nodup := by
    have hperm : List.Perm scopes.flatten (sortNat scopes.flatten) :=
      (List.perm_insertionSort _ _).symm
    rw [hpass] at hperm
    exact hperm.nodup_iff.mpr (List.nodup_range _)
  have hsub : ∀ m ∈ scopes.flatten, m < ncols X := by
    intro m hm
    have h1 : m ∈ sortNat scopes.flatten :=
      (List.mem_insertionSort _).mpr hm
    rw [hpass] at h1
    rw [← hflen_ncols]
    exact List.mem_range.mp h1
  obtain ⟨hscnod, hscdis⟩ := List.nodup_flatten.mp hndflat
  have hdisP : List.Pairwise (fun p q => p.2.Disjoint q.2)
      (s.estimators.zip s.estimator_feature_indices) := by
    rw [hf1]
    exact pairwise_zip_snd _ _ hscdis
  have hnodP : ∀ p ∈ s.estimators.zip s.estimator_feature_indices,
      p.2.Nodup := by
    intro p hp
    refine hscnod p.2 ?_
    have h2 := (List.of_mem_zip hp).2
    rw [hf1] at h2
    exact h2
  have hallP : ∀ p ∈ s.estimators.zip s.estimator_feature_indices,
      ∀ m ∈ p.2,
      m < (List.replicate (ncols X) (Option.none : Option ℚ)).length := by
    intro p hp m hm
    rw [List.length_replicate]
    refine hsub m (List.mem_flatten.mpr ⟨p.2, ?_, hm⟩)
    have h2 := (List.of_mem_zip hp).2
    rw [hf1] at h2
    exact h2
  have hfittedlen := fitSteps_length X w
    (s.estimators.zip s.estimator_feature_indices) y
    (List.replicate (ncols X) Option.none)
  have hziplen : (s.estimators.zip s.estimator_feature_indices).length =
      scopes.length := by
    rw [List.length_zip, hf1, hf5, Nat.min_self]
  have hBlen : ((fitSteps X w
      (s.estimators.zip s.estimator_feature_indices) y
      (List.replicate (ncols X) Option.none)).2.1).length = ncols X := by
    rw [fitSteps_coef_length, List.length_replicate]
  refine ⟨_, hcoef, hBlen, ?_, ?_⟩
  · intro i e sc hie hsc
    have hie_lt : i < s'.estimators.length := (List.getElem?_eq_some.mp hie).1
    have hsc_lt : i < scopes.length := by
      have h2 := (List.getElem?_eq_some.mp hsc).1
      rw [hf1] at h2
      exact h2
    have hiP : i < (s.estimators.zip s.estimator_feature_indices).length :=
      by rw [hziplen]; exact hsc_lt
    have hfi : (fitSteps X w (s.estimators.zip s.estimator_feature_indices)
        y (List.replicate (ncols X) Option.none)).1[i]? = some e := by
      rw [hests] at hie
      rwa [List.getElem?_append_left (by rw [hfittedlen]; exact hiP)] at hie
    have he0 : ∃ e0, s.estimators[i]? = some e0 := by
      have h2 : i < s.estimators.length := by
        rw [hf5]
        exact hsc_lt
      exact ⟨s.estimators[i], List.getElem?_eq_getElem h2⟩
    obtain ⟨e0, he0⟩ := he0
    have hpairsi : (s.estimators.zip s.estimator_feature_indices)[i]? =
        some (e0, sc) := getElem?_zip_of _ _ i e0 sc he0 hsc
    have hcl := hclen i e sc hie hsc
    refine List.ext_getElem? ?_
    intro t
    simp only [selOpt, List.getElem?_map]
    rcases hsct : sc[t]? with _ | j
    · have ht_ge : sc.length ≤ t := by
        by_contra hlt
        push_neg at hlt
        rw [List.getElem?_eq_getElem hlt] at hsct
        exact Option.noConfusion hsct
      have hcoef_none : (e.coef_.getD [])[t]? = Option.none := by
        refine List.getElem?_eq_none ?_
        rw [hcl]
        exact ht_ge
      rw [hcoef_none]
      rfl
    · have ht_lt : t < sc.length := (List.getElem?_eq_some.mp hsct).1
      have ht_lt2 : t < (e.coef_.getD []).length := by
        rw [hcl]
        exact ht_lt
      have hx : (e.coef_.getD [])[t]? = some ((e.coef_.getD [])[t]) :=
        List.getElem?_eq_getElem ht_lt2
      have hB := fitSteps_coef_get X w
        (s.estimators.zip s.estimator_feature_indices) y
        (List.replicate (ncols X) Option.none) i (e0, sc) e t j
        ((e.coef_.getD [])[t]) hdisP hnodP hallP hpairsi hfi hsct hx
      rw [hx]
      simp only [Option.map_some']
      rw [List.getD_eq_getElem?_getD, hB]
      rfl
  · intro k hk
    have hkmem : k ∈ scopes.flatten := by
      have h1 : k ∈ List.range scopes.flatten.length := by
        rw [hflen_ncols]
        exact List.mem_range.mpr hk
      rw [← hpass] at h1
      exact (List.mem_insertionSort _).mp h1
    obtain ⟨sc, hscmem, hksc⟩ := List.mem_flatten.mp hkmem
    obtain ⟨i, hi_lt, hisc⟩ := List.getElem_of_mem hscmem
    have hsc : s.estimator_feature_indices[i]? = some sc := by
      rw [hf1]
      rw [List.getElem?_eq_getElem hi_lt, hisc]
    have hiP : i < (s.estimators.zip s.estimator_feature_indices).length :=
      by rw [hziplen]; exact hi_lt
    have hfe : ∃ fe, (fitSteps X w
        (s.estimators.zip s.estimator_feature_indices) y
        (List.replicate (ncols X) Option.none)).1[i]? = some fe := by
      have h2 : i < (fitSteps X w
          (s.estimators.zip s.estimator_feature_indices) y
          (List.replicate (ncols X) Option.none)).1.length := by
        rw [hfittedlen]
        exact hiP
      exact ⟨_, List.getElem?_eq_getElem h2⟩
    obtain ⟨fe, hfe⟩ := hfe
    have hie : s'.estimators[i]? = some fe := by
      rw [hests]
      rwa [List.getElem?_append_left (by rw [hfittedlen]; exact hiP)]
    have he0 : ∃ e0, s.estimators[i]? = some e0 := by
      have h2 : i < s.estimators.length := by
        rw [hf5]
        exact hi_lt
      exact ⟨s.estimators[i], List.getElem?_eq_getElem h2⟩
    obtain ⟨e0, he0⟩ := he0
    have hpairsi : (s.estimators.zip s.estimator_feature_indices)[i]? =
        some (e0, sc) := getElem?_zip_of _ _ i e0 sc he0 hsc
    obtain ⟨t, ht⟩ : ∃ t : Nat, sc[t]? = some k := by
      obtain ⟨t, ht_lt, hte⟩ := List.getElem_of_mem hksc
      exact ⟨t, by rw [List.getElem?_eq_getElem ht_lt, hte]⟩
    have hcl := hclen i fe sc hie hsc
    have ht_lt2 : t < (fe.coef_.getD []).length := by
      rw [hcl]
      exact (List.getElem?_eq_some.mp ht).1
    have hx : (fe.coef_.getD [])[t]? = some ((fe.coef_.getD [])[t]) :=
      List.getElem?_eq_getElem ht_lt2
    have hB := fitSteps_coef_get X w
      (s.estimators.zip s.estimator_feature_indices) y
      (List.replicate (ncols X) Option.none) i (e0, sc) fe t k
      ((fe.coef_.getD [])[t]) hdisP hnodP hallP hpairsi hfe ht hx
    rw [List.getD_eq_getElem?_getD, hB]
    rfl

/-- Witness for C2: fitting the concrete two-step composite (obtained
from construct) fills both coefficient positions, leaving no sentinel. -/
theorem sw_fit_coef_assembly_witness :
    ∃ C : List (Option ℚ),
      (StepwiseEstimator.fit swC1 [[1, 2]] [10] Option.none).1.coef_ =
        some C ∧
      (C.getD 0 Option.none).isSome = true ∧
      (C.getD 1 Option.none).isSome = true := by
  have hcl : ∀ (i : Nat) (e : SubEstimator) (sc : List Nat),
      (StepwiseEstimator.fit swC1 [[1, 2]] [10] Option.none).1.estimators[i]?
        = some e →
      swC1.estimator_feature_indices[i]? = some sc →
      (e.coef_.getD []).length = sc.length := by
    intro i e sc hie hsc
    have hi : i < 2 := by
      have h2 := (List.getElem?_eq_some.mp hsc).1
      simpa [swC1] using h2
    interval_cases i
    · have h1 := Option.some.inj hie
      have h2 := Option.some.inj hsc
      subst h1 h2
      rfl
    · have h1 := Option.some.inj hie
      have h2 := Option.some.inj hsc
      subst h1 h2
      rfl
  obtain ⟨C, h1, h2, h3, h4⟩ := sw_fit_coef_assembly
    [(['a'], .sub subC1), (['b'], .sub subC1)] [[0], [1]] swC1
    ((StepwiseEstimator.fit swC1 [[1, 2]] [10] Option.none).1) [[1, 2]]
    [10] Option.none rfl rfl hcl
  exact ⟨C, h1, h4 0 (by decide), h4 1 (by decide)⟩

/-! ### C8: set_params routing -/

/-- The parameters addressed to step i: the input entries whose qualified
name resolves to step i, re-keyed by their native name, in order (later
duplicates overwriting, as a Python dict does). -/
def paramsForStep (s : StepwiseEstimator) (params : List (PyStr × PyVal))
    (i : Nat) : List (PyStr × PyVal) :=
  params.foldl (fun d p =>
    match s.getStepParamName p.1 with
    | .ok (j, real) => if j = i then dictInsert d real p.2 else d
    | .error _ => d) []

/-- Modifying a list at an index preserves its length. -/
lemma listModify_length : ∀ (l : List α) (i : Nat) (f : α → α),
    (listModify l i f).length = l.length
  | [], _, _ => rfl
  | a :: t, 0, f => rfl
  | a :: t, n + 1, f => by
    simp only [listModify, List.length_cons, listModify_length t n f]

/-- Modifying a list at an index, read back at the same index. -/
lemma listModify_get_self : ∀ (l : List α) (i : Nat) (f : α → α),
    (listModify l i f)[i]? = (l[i]?).map f
  | [], _, _ => rfl
  | a :: t, 0, f => by simp [listModify]
  | a :: t, n + 1, f => by
    simp only [listModify, List.getElem?_cons_succ]
    exact listModify_get_self t n f

/-- Modifying a list at an index, read back elsewhere. -/
lemma listModify_get_ne : ∀ (l : List α) (i j : Nat) (f : α → α),
    i ≠ j → (listModify l i f)[j]? = l[j]?
  | [], _, _, _, _ => rfl
  | a :: t, 0, 0, f, h => absurd rfl h
  | a :: t, 0, j + 1, f, h => by simp [listModify]
  | a :: t, i + 1, 0, f, h => by simp [listModify]
  | a :: t, i + 1, j + 1, f, h => by
    simp only [listModify, List.getElem?_cons_succ]
    exact listModify_get_ne t i j f (fun he => h (by rw [he]))

/-- The partition loop of set_params, read at one step index: it applies
to that slot exactly the fold that keeps the entries addressed there. -/
lemma setParamsLoop_get (s : StepwiseEstimator) :
    ∀ (ps : List (PyStr × PyVal)) (acc : List (List (PyStr × PyVal)))
      (out : List (List (PyStr × PyVal))) (i : Nat),
      setParamsLoop s ps acc = .ok out →
      out[i]? = (acc[i]?).map (fun d0 => ps.foldl (fun d p =>
        match s.getStepParamName p.1 with
        | .ok (j, real) => if j = i then dictInsert d real p.2 else d
        | .error _ => d) d0)
  | [], acc, out, i, h => by
    have h1 : acc = out := Except.ok.inj h
    subst h1
    simp only [List.foldl_nil]
    cases acc[i]? <;> rfl
  | (name, v) :: rest, acc, out, i, h => by
    simp only [setParamsLoop] at h
    rcases hres : s.getStepParamName name with e | ⟨j, real⟩
    · rw [hres] at h
      exact Except.noConfusion h
    · rw [hres] at h
      have IH := setParamsLoop_get s rest
        (listModify acc j (fun d => dictInsert d real v)) out i h
      rw [IH]
      simp only [List.foldl_cons, hres]
      by_cases hji : j = i
      · subst hji
        rw [listModify_get_self]
        cases acc[j]? <;> simp
      · rw [listModify_get_ne acc j i _ hji]
        cases acc[i]? <;> simp [hji]

/-- The partition loop preserves the slot count. -/
lemma setParamsLoop_length (s : StepwiseEstimator) :
    ∀ (ps : List (PyStr × PyVal)) (acc out : List (List (PyStr × PyVal))),
      setParamsLoop s ps acc = .ok out → out.length = acc.length
  | [], acc, out, h => by rw [← Except.ok.inj h]
  | (name, v) :: rest, acc, out, h => by
    simp only [setParamsLoop] at h
    rcases hres : s.getStepParamName name with e | ⟨j, real⟩
    · rw [hres] at h
      exact Except.noConfusion h
    · rw [hres] at h
      have IH := setParamsLoop_length s rest _ out h
      rw [IH, listModify_length]

/-- A modified list literal read out of range is none. -/
lemma getElem?_replicate_lt (a : α) : ∀ (n i : Nat), i < n →
    (List.replicate n a)[i]? = some a
  | 0, _, h => absurd h (Nat.not_lt_zero _)
  | n + 1, 0, _ => by simp [List.replicate_succ]
  | n + 1, i + 1, h => by
    simp only [List.replicate_succ, List.getElem?_cons_succ]
    exact getElem?_replicate_lt a n i (Nat.lt_of_succ_lt_succ h)

/-- C8 counterexample sub-estimator: any set_params call, even with an
empty mapping, observably marks its parameter state. -/
def subMarker : SubEstimator :=
  { defaultSub with
    setParamsFun := fun _ _ => [(['c', 'a', 'l', 'l', 'e', 'd'], PyVal.vNone)] }

/-- C8 counterexample composite: step b's estimator is the marker. -/
def swC8 : StepwiseEstimator :=
  ⟨[['a'], ['b']], [defaultSub, subMarker], [[0], [1]], [0, 1],
    Option.none, Option.none⟩

/-- C8 counterexample: set_params with one parameter addressed only to
step a still calls step b's own set_params (with an empty mapping): step
b's state changes, contradicting the claim that it receives no call. -/
theorem sw_set_params_counterexample :
    swC8.estimators.map (·.paramState) = [[], []] ∧
    (StepwiseEstimator.set_params swC8
        [(['a', '_', '_', 'x'], PyVal.vNum 1)]).toOption.map
      (fun s => s.estimators.map (·.paramState)) =
      some [[], [(['c', 'a', 'l', 'l', 'e', 'd'], PyVal.vNone)]] :=
  ⟨rfl, rfl⟩

/-- Shared characterization of set_params: the fast path returns the
composite unchanged, and otherwise every sub-estimator is replaced by
the result of its own set_params on exactly the parameters addressed to
it. -/
lemma setParamsPartition (s : StepwiseEstimator)
    (params : List (PyStr × PyVal)) (s' : StepwiseEstimator)
    (hok : s.set_params params = .ok s') :
    (params = [] → s' = s) ∧
    s'.step_names = s.step_names ∧
    s'.estimator_feature_indices = s.estimator_feature_indices ∧
    (params ≠ [] → ∀ i : Nat, s'.estimators[i]? =
      (s.estimators[i]?).map (fun e => e.set_params (paramsForStep s params i))) := by
  unfold StepwiseEstimator.set_params at hok
  by_cases hp : params = []
  · rw [if_pos hp] at hok
    have h1 := (Except.ok.inj hok).symm
    subst h1
    exact ⟨fun _ => rfl, rfl, rfl, fun hne => absurd hp hne⟩
  · rw [if_neg hp] at hok
    rcases hloop : setParamsLoop s params
        (List.replicate s.estimators.length []) with e | pfe
    · rw [hloop] at hok
      exact Except.noConfusion hok
    · rw [hloop] at hok
      have h1 := (Except.ok.inj hok).symm
      subst h1
      refine ⟨fun he => absurd he hp, rfl, rfl, fun _ i => ?_⟩
      have hget := setParamsLoop_get s params
        (List.replicate s.estimators.length []) pfe i hloop
      rcases he : s.estimators[i]? with _ | ei
      · have hi_ge : s.estimators.length ≤ i := by
          by_contra hlt
          push_neg at hlt
          rw [List.getElem?_eq_getElem hlt] at he
          exact Option.noConfusion he
        have hzlen : (s.estimators.zip pfe).length ≤ i := by
          rw [List.length_zip]
          exact le_trans (Nat.min_le_left _ _) hi_ge
        simp only [List.getElem?_map]
        rw [List.getElem?_eq_none (by simpa using hzlen)]
        rfl
      · have hi_lt : i < s.estimators.length :=
          (List.getElem?_eq_some.mp he).1
        have hrep : (List.replicate s.estimators.length
            ([] : List (PyStr × PyVal)))[i]? = some [] :=
          getElem?_replicate_lt _ _ i hi_lt
        rw [hrep] at hget
        have hzip : (s.estimators.zip pfe)[i]? =
            some (ei, paramsForStep s params i) :=
          getElem?_zip_of _ _ i ei _ he (by
            rw [hget]
            rfl)
        simp only [List.getElem?_map, hzip]
        rfl

/-- C8 amended: empty input is a no-op returning the composite with no
calls; on non-empty input that resolves, every sub-estimator receives
exactly one set_params call carrying precisely the parameters addressed
to it by the first-double-underscore splitting rule (an empty mapping
when none are addressed to it). -/
theorem sw_set_params_partition (s : StepwiseEstimator)
    (params : List (PyStr × PyVal)) (s' : StepwiseEstimator)
    (hok : s.set_params params = .ok s') :
    (params = [] → s' = s) ∧
    s'.step_names = s.step_names ∧
    s'.estimator_feature_indices = s.estimator_feature_indices ∧
    (params ≠ [] → ∀ i : Nat, s'.estimators[i]? =
      (s.estimators[i]?).map (fun e => e.set_params (paramsForStep s params i))) :=
  setParamsPartition s params s' hok

/-- Witness for the amended C8: on the concrete composite, the step with
no parameters addressed to it still receives exactly one set_params call
with the empty mapping. -/
theorem sw_set_params_partition_witness :
    ∃ s', StepwiseEstimator.set_params swC8
        [(['a', '_', '_', 'x'], PyVal.vNum 1)] = .ok s' ∧
      s'.estimators[1]? = (swC8.estimators[1]?).map
        (fun e => e.set_params
          (paramsForStep swC8 [(['a', '_', '_', 'x'], PyVal.vNum 1)] 1)) := by
  refine ⟨(StepwiseEstimator.set_params swC8
    [(['a', '_', '_', 'x'], PyVal.vNum 1)]).toOption.getD swC8, rfl, ?_⟩
  exact (sw_set_params_partition swC8
    [(['a', '_', '_', 'x'], PyVal.vNum 1)]
    ((StepwiseEstimator.set_params swC8
      [(['a', '_', '_', 'x'], PyVal.vNum 1)]).toOption.getD swC8)
    rfl).2.2.2 (List.cons_ne_nil _ _) 1

/-! ### C9: the qualified parameter namespace -/

/-- Whether a name contains the separator `__` as a substring. -/
def hasDUS : List Char → Bool
  | [] => false
  | [_] => false
  | c1 :: c2 :: rest =>
    if c1 = '_' ∧ c2 = '_' then true else hasDUS (c2 :: rest)

/-- Whether a name ends with an underscore. -/
def endsU : List Char → Bool
  | [] => false
  | [c] => if c = '_' then true else false
  | _ :: c2 :: rest => endsU (c2 :: rest)

/-- A qualified parameter name: step name, separator, native name. -/
def qualName (nm p : PyStr) : PyStr := nm ++ '_' :: '_' :: p

/-- Unfolding equation for pySplit on two or more characters. -/
lemma pySplit_cons2 (c1 c2 : Char) (rest : List Char) :
    pySplit (c1 :: c2 :: rest) =
      if c1 = '_' ∧ c2 = '_' then [] :: pySplit rest
      else
        match pySplit (c2 :: rest) with
        | [] => [[c1]]
        | h :: t => (c1 :: h) :: t := by
  simp [pySplit]

/-- pySplit never returns an empty list of pieces. -/
lemma pySplit_ne_nil : ∀ l : List Char, pySplit l ≠ []
  | [] => by simp [pySplit]
  | [c] => by simp [pySplit]
  | c1 :: c2 :: rest => by
    rw [pySplit_cons2]
    split
    · simp
    · split
      · simp
      · simp

/-- Splitting a qualified name whose step part is safe (no inner `__`,
no trailing underscore) recovers the step part as the first piece. -/
lemma pySplit_qual : ∀ nm p : List Char, hasDUS nm = false →
    endsU nm = false → pySplit (nm ++ '_' :: '_' :: p) = nm :: pySplit p
  | [], p, _, _ => by
    simp only [List.nil_append]
    rw [pySplit_cons2, if_pos ⟨rfl, rfl⟩]
  | [c], p, hd, he => by
    have hc : ¬(c = '_') := by
      intro h
      rw [h] at he
      simp [endsU] at he
    simp only [List.cons_append, List.nil_append]
    rw [pySplit_cons2, if_neg (fun hh => hc hh.1)]
    rw [pySplit_cons2, if_pos ⟨rfl, rfl⟩]
  | c1 :: c2 :: nm, p, hd, he => by
    have hcond : ¬(c1 = '_' ∧ c2 = '_') := by
      intro hboth
      unfold hasDUS at hd
      rw [if_pos hboth] at hd
      exact Bool.noConfusion hd
    have hd2 : hasDUS (c2 :: nm) = false := by
      unfold hasDUS at hd
      rwa [if_neg hcond] at hd
    have he2 : endsU (c2 :: nm) = false := he
    have IH := pySplit_qual (c2 :: nm) p hd2 he2
    simp only [List.cons_append] at IH ⊢
    rw [pySplit_cons2, if_neg hcond, IH]

/-- Unfolding equation for pyJoin on two or more pieces. -/
lemma pyJoin_cons2 (a b : List Char) (t : List (List Char)) :
    pyJoin (a :: b :: t) = a ++ '_' :: '_' :: pyJoin (b :: t) := rfl

/-- Joining the pieces of a split recovers the original name. -/
lemma pyJoin_pySplit : ∀ l : List Char, pyJoin (pySplit l) = l
  | [] => rfl
  | [c] => rfl
  | c1 :: c2 :: rest => by
    rw [pySplit_cons2]
    by_cases hcond : c1 = '_' ∧ c2 = '_'
    · rw [if_pos hcond]
      rcases hsp : pySplit rest with _ | ⟨h, t⟩
      · exact absurd hsp (pySplit_ne_nil rest)
      · have IH := pyJoin_pySplit rest
        rw [hsp] at IH
        rw [pyJoin_cons2, IH, hcond.1, hcond.2]
        rfl
    · rw [if_neg hcond]
      rcases hsp : pySplit (c2 :: rest) with _ | ⟨h, t⟩
      · exact absurd hsp (pySplit_ne_nil _)
      · have IH := pyJoin_pySplit (c2 :: rest)
        rw [hsp] at IH
        cases t with
        | nil =>
          simp only [pyJoin] at IH ⊢
          rw [IH]
        | cons t0 ts =>
          rw [pyJoin_cons2] at IH
          rw [pyJoin_cons2, List.cons_append, IH]

/-- Qualified names built from safe step names determine their parts. -/
lemma qualName_inj (nm1 p1 nm2 p2 : PyStr)
    (h1d : hasDUS nm1 = false) (h1e : endsU nm1 = false)
    (h2d : hasDUS nm2 = false) (h2e : endsU nm2 = false)
    (heq : qualName nm1 p1 = qualName nm2 p2) : nm1 = nm2 ∧ p1 = p2 := by
  have hs := congrArg pySplit heq
  unfold qualName at hs
  rw [pySplit_qual nm1 p1 h1d h1e, pySplit_qual nm2 p2 h2d h2e] at hs
  have hnm : nm1 = nm2 := List.head_eq_of_cons_eq hs
  have hp : pySplit p1 = pySplit p2 := List.tail_eq_of_cons_eq hs
  refine ⟨hnm, ?_⟩
  have := congrArg pyJoin hp
  rwa [pyJoin_pySplit, pyJoin_pySplit] at this

/-- pyIndex returns the declared position under uniqueness. -/
lemma pyIndex_of_nodup : ∀ (l : List PyStr) (i : Nat) (a : PyStr),
    l.Nodup → l[i]? = some a → pyIndex a l = some i
  | [], _, _, _, h => by simp at h
  | b :: t, 0, a, hnd, h => by
    simp only [List.getElem?_cons_zero] at h
    have hba : b = a := Option.some.inj h
    simp [pyIndex, hba]
  | b :: t, n + 1, a, hnd, h => by
    simp only [List.getElem?_cons_succ] at h
    have hmem : a ∈ t := List.getElem?_mem h
    have hba : ¬(b = a) := fun he => (List.nodup_cons.mp hnd).1 (he ▸ hmem)
    simp only [pyIndex, if_neg hba,
      pyIndex_of_nodup t n a (List.nodup_cons.mp hnd).2 h]
    rfl

/-- pyIndex finds every member. -/
lemma pyIndex_isSome_of_mem : ∀ (l : List PyStr) (a : PyStr), a ∈ l →
    ∃ i, pyIndex a l = some i
  | [], a, h => absurd h (List.not_mem_nil a)
  | b :: t, a, h => by
    by_cases hba : b = a
    · exact ⟨0, by simp [pyIndex, hba]⟩
    · have hmem : a ∈ t := by
        rcases List.mem_cons.mp h with h1 | h1
        · exact absurd h1.symm hba
        · exact h1
      obtain ⟨i, hi⟩ := pyIndex_isSome_of_mem t a hmem
      exact ⟨i + 1, by simp [pyIndex, hba, hi]⟩

/-- pyIndex reads back the element at the index it returns. -/
lemma pyIndex_get : ∀ (l : List PyStr) (a : PyStr) (i : Nat),
    pyIndex a l = some i → l[i]? = some a
  | [], _, _, h => by simp [pyIndex] at h
  | b :: t, a, i, h => by
    by_cases hba : b = a
    · simp only [pyIndex, if_pos hba] at h
      have := Option.some.inj h
      subst this
      simp [hba]
    · simp only [pyIndex, if_neg hba] at h
      rcases hres : pyIndex a t with _ | i0
      · rw [hres] at h
        exact Option.noConfusion h
      · rw [hres] at h
        have hi : i0 + 1 = i := Option.some.inj h
        subst hi
        simp only [List.getElem?_cons_succ]
        exact pyIndex_get t a i0 hres

/-- Resolving a safe qualified name yields the step's index and the
native name. -/
lemma getStepParamName_qual (s : StepwiseEstimator) (nm p : PyStr)
    (i : Nat) (hd : hasDUS nm = false) (he : endsU nm = false)
    (hidx : pyIndex nm s.step_names = some i) :
    s.getStepParamName (qualName nm p) = .ok (i, p) := by
  unfold StepwiseEstimator.getStepParamName
  unfold qualName
  rw [pySplit_qual nm p hd he]
  simp only [List.headD_cons, List.tail_cons]
  rw [hidx, pyJoin_pySplit]

/-- C9 counterexample estimator exposing native parameter `b__x`. -/
def subPbx : SubEstimator := { defaultSub with paramNames := [['b', '_', '_', 'x']] }

/-- C9 counterexample estimator exposing native parameter `x`. -/
def subPx : SubEstimator := { defaultSub with paramNames := [['x']] }

/-- C9 counterexample: a constructed composite with unique step names (a
and a__b) whose flattened parameter names nevertheless collide: both
steps flatten to a__b__x. -/
theorem sw_namespace_counterexample :
    ∃ s, construct [(['a'], .sub subPbx), (['a', '_', '_', 'b'], .sub subPx)]
        [[0], [1]] = .ok s ∧
      s.step_names.Nodup ∧ ¬(s.getParamNames).Nodup := by
  refine ⟨_, rfl, by decide, by decide⟩

/-- Pairwise relations on first components transfer to a zip. -/
lemma pairwise_zip_fst {α β : Type} {R : α → α → Prop} :
    ∀ (A : List α) (B : List β), List.Pairwise R A →
      List.Pairwise (fun p q => R p.1 q.1) (A.zip B)
  | [], _, _ => List.Pairwise.nil
  | _ :: _, [], _ => List.Pairwise.nil
  | a :: A, b :: B, h => by
    rw [List.zip_cons_cons]
    exact List.Pairwise.cons
      (fun q hq => (List.pairwise_cons.mp h).1 q.1 (List.of_mem_zip hq).1)
      (pairwise_zip_fst A B (List.pairwise_cons.mp h).2)

/-- With unique step names free of inner double underscores and trailing
underscores, and duplicate-free native parameter lists, the flattened
qualified names have no duplicates. -/
lemma getParamNames_nodup (s : StepwiseEstimator)
    (hnd : s.step_names.Nodup)
    (hsafe : ∀ nm ∈ s.step_names, hasDUS nm = false ∧ endsU nm = false)
    (hpnod : ∀ e ∈ s.estimators, e.paramNames.Nodup) :
    (s.getParamNames).Nodup := by
  unfold StepwiseEstimator.getParamNames
  rw [List.nodup_flatten]
  constructor
  · intro L hL
    obtain ⟨pr, hpr, hLeq⟩ := List.mem_map.mp hL
    subst hLeq
    have hpn : pr.2.Nodup := by
      have h2 := (List.of_mem_zip hpr).2
      obtain ⟨e, he, heq⟩ := List.mem_map.mp h2
      rw [← heq]
      exact hpnod e he
    refine List.Nodup.map ?_ hpn
    intro n1 n2 hq
    have h3 := congrArg (List.drop pr.1.length) hq
    rw [List.drop_left, List.drop_left] at h3
    exact List.tail_eq_of_cons_eq (List.tail_eq_of_cons_eq h3)
  · rw [List.pairwise_map]
    have hzp : List.Pairwise (fun p q => p.1 ≠ q.1)
        (s.step_names.zip (s.estimators.map (·.paramNames))) :=
      pairwise_zip_fst _ _ hnd
    refine hzp.imp_of_mem ?_
    intro p q hp hq hne
    intro x hxp hxq
    obtain ⟨n1, hn1, he1⟩ := List.mem_map.mp hxp
    obtain ⟨n2, hn2, he2⟩ := List.mem_map.mp hxq
    have heq : qualName p.1 n1 = qualName q.1 n2 := he1.trans he2.symm
    have hs1 := hsafe p.1 (List.of_mem_zip hp).1
    have hs2 := hsafe q.1 (List.of_mem_zip hq).1
    exact hne (qualName_inj _ _ _ _ hs1.1 hs1.2 hs2.1 hs2.2 heq).1

/-- The value get_params records for one qualified name: route to its
step, read the native name off that step's own parameter dictionary
(Python None when absent). -/
def valOf (s : StepwiseEstimator) (estP : List (List (PyStr × PyVal)))
    (n : PyStr) : PyVal :=
  match s.getStepParamName n with
  | .ok (i, p) => (pyLookup p (estP.getD i [])).getD PyVal.vNone
  | .error _ => PyVal.vNone

/-- When every name resolves, the get_params loop succeeds and folds
dictionary insertions of the routed values. -/
lemma getParamsLoop_ok (s : StepwiseEstimator)
    (estP : List (List (PyStr × PyVal))) :
    ∀ (NL : List PyStr) (out0 : List (PyStr × PyVal)),
      (∀ n ∈ NL, ∃ ir : Nat × PyStr, s.getStepParamName n = .ok ir) →
      getParamsLoop s estP NL out0 =
        .ok (NL.foldl (fun dd n => dictInsert dd n (valOf s estP n)) out0)
  | [], _, _ => rfl
  | n :: NL, out0, hres => by
    obtain ⟨⟨i, p⟩, hir⟩ := hres n (List.mem_cons_self _ _)
    simp only [getParamsLoop, hir, List.foldl_cons]
    have hval : valOf s estP n = (pyLookup p (estP.getD i [])).getD PyVal.vNone := by
      simp only [valOf, hir]
    rw [← hval]
    exact getParamsLoop_ok s estP NL _
      (fun m hm => hres m (List.mem_cons_of_mem _ hm))

/-- Inserting a fresh key appends it at the end of the dictionary. -/
lemma dictInsert_fresh : ∀ (d : List (PyStr × PyVal)) (k : PyStr)
    (v : PyVal), k ∉ d.map Prod.fst → dictInsert d k v = d ++ [(k, v)]
  | [], _, _, _ => rfl
  | p :: t, k, v, h => by
    have hpk : ¬(p.1 = k) := fun he => h (by
      rw [← he]
      exact List.mem_map_of_mem Prod.fst (List.mem_cons_self p t))
    simp only [dictInsert, if_neg hpk, List.cons_append]
    rw [dictInsert_fresh t k v (fun hm => h (by
      simp only [List.map_cons, List.mem_cons]
      exact Or.inr hm))]

/-- Folding insertions of distinct fresh keys is just appending the
association list of their values. -/
lemma foldl_insert_map (g : PyStr → PyVal) :
    ∀ (NL : List PyStr) (out0 : List (PyStr × PyVal)), NL.Nodup →
      (∀ n ∈ NL, n ∉ out0.map Prod.fst) →
      NL.foldl (fun dd n => dictInsert dd n (g n)) out0 =
        out0 ++ NL.map (fun n => (n, g n))
  | [], out0, _, _ => by simp
  | n :: NL, out0, hnd, hfresh => by
    simp only [List.foldl_cons]
    rw [dictInsert_fresh out0 n (g n) (hfresh n (List.mem_cons_self _ _))]
    rw [foldl_insert_map g NL (out0 ++ [(n, g n)])
      (List.nodup_cons.mp hnd).2 ?_]
    · simp
    · intro m hm
      simp only [List.map_append, List.mem_append]
      rintro (hmem | hmem)
      · exact hfresh m (List.mem_cons_of_mem _ hm) hmem
      · simp only [List.map_cons, List.map_nil, List.mem_cons,
          List.not_mem_nil, or_false] at hmem
        exact (List.nodup_cons.mp hnd).1 (hmem ▸ hm)

/-- Every flattened qualified name resolves when step names are safe. -/
lemma getParamNames_resolvable (s : StepwiseEstimator)
    (hsafe : ∀ nm ∈ s.step_names, hasDUS nm = false ∧ endsU nm = false) :
    ∀ n ∈ s.getParamNames,
      ∃ ir : Nat × PyStr, s.getStepParamName n = .ok ir := by
  intro n hn
  unfold StepwiseEstimator.getParamNames at hn
  obtain ⟨L, hL, hnL⟩ := List.mem_flatten.mp hn
  obtain ⟨pr, hpr, hLeq⟩ := List.mem_map.mp hL
  subst hLeq
  obtain ⟨p, hp, hne⟩ := List.mem_map.mp hnL
  have hmem := (List.of_mem_zip hpr).1
  obtain ⟨i, hi⟩ := pyIndex_isSome_of_mem s.step_names pr.1 hmem
  have hs := hsafe pr.1 hmem
  refine ⟨(i, p), ?_⟩
  rw [← hne]
  exact getStepParamName_qual s pr.1 p i hs.1 hs.2 hi

/-- Full characterization of get_params: with safe unique step names and
duplicate-free native parameter lists, it returns the association list
of all flattened names with their routed values, in declared order. -/
lemma get_params_eq (s : StepwiseEstimator) (deep : Bool)
    (hnd : s.step_names.Nodup)
    (hsafe : ∀ nm ∈ s.step_names, hasDUS nm = false ∧ endsU nm = false)
    (hpnod : ∀ e ∈ s.estimators, e.paramNames.Nodup) :
    s.get_params deep = .ok ((s.getParamNames).map
      (fun n => (n, valOf s (s.estimators.map (·.get_params deep)) n))) := by
  unfold StepwiseEstimator.get_params
  rw [getParamsLoop_ok s _ s.getParamNames []
    (getParamNames_resolvable s hsafe)]
  rw [foldl_insert_map _ s.getParamNames []
    (getParamNames_nodup s hnd hsafe hpnod) (by simp)]
  rw [List.nil_append]

/-- The fold that computes one step's slice of a parameter partition. -/
def foldPF (s : StepwiseEstimator) (i : Nat) (acc : List (PyStr × PyVal))
    (d : List (PyStr × PyVal)) : List (PyStr × PyVal) :=
  d.foldl (fun dd q =>
    match s.getStepParamName q.1 with
    | .ok (j, real) => if j = i then dictInsert dd real q.2 else dd
    | .error _ => dd) acc

/-- paramsForStep is that fold started from the empty dictionary. -/
lemma paramsForStep_eq_foldPF (s : StepwiseEstimator)
    (params : List (PyStr × PyVal)) (i : Nat) :
    paramsForStep s params i = foldPF s i [] params := rfl

/-- The partition fold splits over appends. -/
lemma foldPF_append (s : StepwiseEstimator) (i : Nat)
    (acc : List (PyStr × PyVal)) (d1 d2 : List (PyStr × PyVal)) :
    foldPF s i acc (d1 ++ d2) = foldPF s i (foldPF s i acc d1) d2 := by
  unfold foldPF
  rw [List.foldl_append]

/-- A block of qualified entries addressed to step i folds to plain
dictionary insertions of its native names. -/
lemma foldPF_block_active (s : StepwiseEstimator) (i : Nat) (nm : PyStr)
    (g : PyStr → PyVal) :
    ∀ (L : List PyStr) (acc : List (PyStr × PyVal)),
      (∀ p ∈ L, s.getStepParamName (qualName nm p) = .ok (i, p)) →
      foldPF s i acc (L.map (fun p => (qualName nm p, g p))) =
        L.foldl (fun dd p => dictInsert dd p (g p)) acc
  | [], _, _ => rfl
  | p :: L, acc, hres => by
    have h1 := hres p (List.mem_cons_self _ _)
    simp only [foldPF, List.map_cons, List.foldl_cons, h1, if_pos]
    exact foldPF_block_active s i nm g L _
      (fun q hq => hres q (List.mem_cons_of_mem _ hq))

/-- A block of qualified entries addressed to another step leaves the
fold unchanged. -/
lemma foldPF_block_skip (s : StepwiseEstimator) (i j : Nat) (nm : PyStr)
    (g : PyStr → PyVal) (hji : j ≠ i) :
    ∀ (L : List PyStr) (acc : List (PyStr × PyVal)),
      (∀ p ∈ L, s.getStepParamName (qualName nm p) = .ok (j, p)) →
      foldPF s i acc (L.map (fun p => (qualName nm p, g p))) = acc
  | [], _, _ => rfl
  | p :: L, acc, hres => by
    have h1 := hres p (List.mem_cons_self _ _)
    simp only [foldPF, List.map_cons, List.foldl_cons, h1, if_neg hji]
    exact foldPF_block_skip s i j nm g hji L _
      (fun q hq => hres q (List.mem_cons_of_mem _ hq))

/-- When no block is addressed to step i, the whole partition fold is the
identity. -/
lemma foldPF_blocks_skip (s : StepwiseEstimator) (i : Nat)
    (g : PyStr → PyStr → PyVal) :
    ∀ (BL : List (PyStr × List PyStr)) (acc : List (PyStr × PyVal)),
      (∀ b ∈ BL, hasDUS b.1 = false ∧ endsU b.1 = false ∧
        ∃ jb, pyIndex b.1 s.step_names = some jb ∧ jb ≠ i) →
      foldPF s i acc ((BL.map (fun b =>
        b.2.map (fun p => (qualName b.1 p, g b.1 p)))).flatten) = acc
  | [], _, _ => rfl
  | b :: BL, acc, hall => by
    obtain ⟨hbd, hbe, jb, hjb, hjbi⟩ := hall b (List.mem_cons_self _ _)
    simp only [List.map_cons, List.flatten_cons]
    rw [foldPF_append, foldPF_block_skip s i jb b.1 (g b.1) hjbi b.2 acc
      (fun p _ => getStepParamName_qual s b.1 p jb hbd hbe hjb)]
    exact foldPF_blocks_skip s i g BL acc
      (fun b2 hb2 => hall b2 (List.mem_cons_of_mem _ hb2))

/-- With pairwise distinct safe block names, the partition fold for step
i computes exactly the insertions of the unique block addressed to i. -/
lemma foldPF_blocks_active (s : StepwiseEstimator) (i : Nat)
    (g : PyStr → PyStr → PyVal) :
    ∀ (BL : List (PyStr × List PyStr)) (acc : List (PyStr × PyVal))
      (q : PyStr × List PyStr),
      (∀ b ∈ BL, hasDUS b.1 = false ∧ endsU b.1 = false ∧
        ∃ jb, pyIndex b.1 s.step_names = some jb) →
      List.Pairwise (fun a b => a.1 ≠ b.1) BL →
      q ∈ BL → pyIndex q.1 s.step_names = some i →
      foldPF s i acc ((BL.map (fun b =>
        b.2.map (fun p => (qualName b.1 p, g b.1 p)))).flatten) =
        q.2.foldl (fun dd p => dictInsert dd p (g q.1 p)) acc
  | [], _, q, _, _, hq, _ => absurd hq (List.not_mem_nil q)
  | b :: BL, acc, q, hall, hpw, hq, hqi => by
    obtain ⟨hbd, hbe, jb, hjb⟩ := hall b (List.mem_cons_self _ _)
    have hresb : ∀ p ∈ b.2,
        s.getStepParamName (qualName b.1 p) = .ok (jb, p) :=
      fun p _ => getStepParamName_qual s b.1 p jb hbd hbe hjb
    simp only [List.map_cons, List.flatten_cons]
    rw [foldPF_append]
    rcases List.mem_cons.mp hq with hqb | hqBL
    · subst hqb
      have hjbi : jb = i := by
        rw [hqi] at hjb
        exact (Option.some.inj hjb).symm
      subst hjbi
      rw [foldPF_block_active s jb q.1 (g q.1) q.2 acc hresb]
      refine foldPF_blocks_skip s jb g BL _ ?_
      intro b2 hb2
      obtain ⟨h2d, h2e, jb2, hjb2⟩ := hall b2 (List.mem_cons_of_mem _ hb2)
      refine ⟨h2d, h2e, jb2, hjb2, ?_⟩
      intro hji
      subst hji
      have hv1 := pyIndex_get _ _ _ hjb2
      have hv2 := pyIndex_get _ _ _ hqi
      rw [hv2] at hv1
      exact (List.pairwise_cons.mp hpw).1 b2 hb2 (Option.some.inj hv1)
    · have hbq : b.1 ≠ q.1 := (List.pairwise_cons.mp hpw).1 q hqBL
      have hjbi : jb ≠ i := by
        intro hji
        subst hji
        have hv1 := pyIndex_get _ _ _ hjb
        have hv2 := pyIndex_get _ _ _ hqi
        rw [hv2] at hv1
        exact hbq (Option.some.inj hv1).symm
      rw [foldPF_block_skip s i jb b.1 (g b.1) hjbi b.2 acc hresb]
      exact foldPF_blocks_active s i g BL acc q
        (fun b2 hb2 => hall b2 (List.mem_cons_of_mem _ hb2))
        (List.pairwise_cons.mp hpw).2 hqBL hqi

/-- The dictionary of a sub-estimator's own current parameter values, as
the composite's round trip delivers it back to that sub-estimator. -/
def rtDict (e : SubEstimator) (deep : Bool) : List (PyStr × PyVal) :=
  e.paramNames.map (fun p => (p, (pyLookup p (e.get_params deep)).getD PyVal.vNone))

/-- The partition loop of set_params succeeds when every name resolves. -/
lemma setParamsLoop_exists (s : StepwiseEstimator) :
    ∀ (ps : List (PyStr × PyVal)) (acc : List (List (PyStr × PyVal))),
      (∀ p ∈ ps, ∃ ir : Nat × PyStr, s.getStepParamName p.1 = .ok ir) →
      ∃ out, setParamsLoop s ps acc = .ok out
  | [], acc, _ => ⟨acc, rfl⟩
  | (n, v) :: ps, acc, h => by
    obtain ⟨⟨i, real⟩, hir⟩ := h (n, v) (List.mem_cons_self _ _)
    simp only [setParamsLoop, hir]
    exact setParamsLoop_exists s ps _
      (fun p hp => h p (List.mem_cons_of_mem _ hp))

/-- Name resolution depends only on the step names. -/
lemma getStepParamName_congr (s1 s2 : StepwiseEstimator)
    (h : s1.step_names = s2.step_names) (n : PyStr) :
    s1.getStepParamName n = s2.getStepParamName n := by
  unfold StepwiseEstimator.getStepParamName
  rw [h]

/-- The routed value depends only on the step names and the parameter
tables. -/
lemma valOf_congr (s1 s2 : StepwiseEstimator)
    (estP1 estP2 : List (List (PyStr × PyVal)))
    (h : s1.step_names = s2.step_names) (h2 : estP1 = estP2) (n : PyStr) :
    valOf s1 estP1 n = valOf s2 estP2 n := by
  unfold valOf
  rw [getStepParamName_congr s1 s2 h, h2]

/-- On the dictionary produced by get_params, the slice addressed to a
step is exactly that step's own current parameter dictionary. -/
lemma partition_eq_rtDict (s : StepwiseEstimator) (deep : Bool)
    (hnd : s.step_names.Nodup)
    (hsafe : ∀ nm ∈ s.step_names, hasDUS nm = false ∧ endsU nm = false)
    (hpnod : ∀ e ∈ s.estimators, e.paramNames.Nodup)
    (hlen : s.step_names.length = s.estimators.length)
    (i : Nat) (ei : SubEstimator) (hei : s.estimators[i]? = some ei) :
    paramsForStep s ((s.getParamNames).map
      (fun n => (n, valOf s (s.estimators.map (·.get_params deep)) n))) i =
      rtDict ei deep := by
  have hi_lt : i < s.estimators.length := (List.getElem?_eq_some.mp hei).1
  have hi_names : i < s.step_names.length := by rw [hlen]; exact hi_lt
  have hnm : s.step_names[i]? = some s.step_names[i] :=
    List.getElem?_eq_getElem hi_names
  have hpl : (s.estimators.map (·.paramNames))[i]? = some ei.paramNames := by
    rw [List.getElem?_map, hei]
    rfl
  have hq : (s.step_names.zip (s.estimators.map (·.paramNames)))[i]? =
      some (s.step_names[i], ei.paramNames) :=
    getElem?_zip_of _ _ i _ _ hnm hpl
  have hqmem := List.getElem?_mem hq
  have hqi : pyIndex s.step_names[i] s.step_names = some i :=
    pyIndex_of_nodup s.step_names i _ hnd hnm
  have hD : (s.getParamNames).map
      (fun n => (n, valOf s (s.estimators.map (·.get_params deep)) n)) =
      (((s.step_names.zip (s.estimators.map (·.paramNames))).map (fun b =>
        b.2.map (fun p => (qualName b.1 p,
          valOf s (s.estimators.map (·.get_params deep)) (qualName b.1 p))))).flatten) := by
    unfold StepwiseEstimator.getParamNames
    rw [List.map_flatten, List.map_map]
    congr 1
    refine List.map_congr_left ?_
    intro b hb
    rw [Function.comp, List.map_map]
    rfl
  rw [paramsForStep_eq_foldPF, hD]
  rw [foldPF_blocks_active s i
    (fun nm p => valOf s (s.estimators.map (·.get_params deep)) (qualName nm p))
    _ [] (s.step_names[i], ei.paramNames) ?_ (pairwise_zip_fst _ _ hnd)
    hqmem hqi]
  · rw [foldl_insert_map _ ei.paramNames []
      (hpnod ei (List.getElem?_mem hei)) (by simp), List.nil_append]
    unfold rtDict
    refine List.map_congr_left ?_
    intro p hp
    have hres : s.getStepParamName (qualName s.step_names[i] p) = .ok (i, p) := by
      have hs := hsafe s.step_names[i] (List.getElem?_mem hnm)
      exact getStepParamName_qual s _ p i hs.1 hs.2 hqi
    simp only [valOf, hres]
    rw [List.getD_eq_getElem?_getD, List.getElem?_map, hei]
    rfl
  · intro b hb
    have hmem := (List.of_mem_zip hb).1
    have hs := hsafe b.1 hmem
    obtain ⟨jb, hjb⟩ := pyIndex_isSome_of_mem s.step_names b.1 hmem
    exact ⟨hs.1, hs.2, jb, hjb⟩

/-- C9 amended: for a composite whose step names are unique, contain no
inner double underscore and do not end with an underscore, and whose
sub-estimators have duplicate-free native parameter lists (one per step)
and satisfy their own round-trip contract, the flattened qualified names
contain no duplicates, and get_params followed by set_params of the very
same pairs leaves a subsequent get_params unchanged. -/
theorem sw_namespace_roundtrip (s : StepwiseEstimator) (deep : Bool)
    (hnd : s.step_names.Nodup)
    (hsafe : ∀ nm ∈ s.step_names, hasDUS nm = false ∧ endsU nm = false)
    (hpnod : ∀ e ∈ s.estimators, e.paramNames.Nodup)
    (hlen : s.step_names.length = s.estimators.length)
    (hcontract : ∀ e ∈ s.estimators,
      (e.set_params (rtDict e deep)).get_params deep = e.get_params deep) :
    (s.getParamNames).Nodup ∧
    ∀ d, s.get_params deep = .ok d →
      ∃ s', s.set_params d = .ok s' ∧ s'.get_params deep = .ok d := by
  refine ⟨getParamNames_nodup s hnd hsafe hpnod, ?_⟩
  intro d hget
  have hgeteq := get_params_eq s deep hnd hsafe hpnod
  have hd : d = (s.getParamNames).map
      (fun n => (n, valOf s (s.estimators.map (·.get_params deep)) n)) := by
    rw [hget] at hgeteq
    exact Except.ok.inj hgeteq
  by_cases hdnil : d = []
  · refine ⟨s, ?_, hget⟩
    unfold StepwiseEstimator.set_params
    rw [if_pos hdnil]
  · have hresolv : ∀ p ∈ d,
        ∃ ir : Nat × PyStr, s.getStepParamName p.1 = .ok ir := by
      intro p hp
      rw [hd] at hp
      obtain ⟨n, hn, he⟩ := List.mem_map.mp hp
      obtain ⟨ir, hir⟩ := getParamNames_resolvable s hsafe n hn
      refine ⟨ir, ?_⟩
      rw [← he]
      exact hir
    obtain ⟨pfe, hpfe⟩ := setParamsLoop_exists s d
      (List.replicate s.estimators.length []) hresolv
    have hok : s.set_params d = .ok
        { s with estimators := (s.estimators.zip pfe).map (fun p => p.1.set_params p.2) } := by
      unfold StepwiseEstimator.set_params
      rw [if_neg hdnil, hpfe]
    obtain ⟨s2, hs2⟩ : ∃ s2, s.set_params d = .ok s2 := ⟨_, hok⟩
    refine ⟨s2, hs2, ?_⟩
    have hparts := setParamsPartition s d s2 hs2
    have hpart := hparts.2.2.2 hdnil
    have hsn : s2.step_names = s.step_names := hparts.2.1
    have hElem : ∀ i : Nat, s2.estimators[i]? =
        (s.estimators[i]?).map (fun e => e.set_params (rtDict e deep)) := by
      intro i
      rw [hpart i]
      rcases hei : s.estimators[i]? with _ | ei
      · rfl
      · simp only [Option.map_some']
        rw [hd]
        exact congrArg (fun dd => some (ei.set_params dd))
          (partition_eq_rtDict s deep hnd hsafe hpnod hlen i ei hei)
    have hpn : s2.estimators.map (·.paramNames) =
        s.estimators.map (·.paramNames) := by
      refine List.ext_getElem? ?_
      intro i
      simp only [List.getElem?_map]
      rw [hElem i]
      rcases s.estimators[i]? with _ | ei
      · rfl
      · rfl
    have hgp : s2.estimators.map (·.get_params deep) =
        s.estimators.map (·.get_params deep) := by
      refine List.ext_getElem? ?_
      intro i
      simp only [List.getElem?_map]
      rw [hElem i]
      rcases hei : s.estimators[i]? with _ | ei
      · rfl
      · simp only [Option.map_some']
        congr 1
        exact hcontract ei (List.getElem?_mem hei)
    have hnames : s2.getParamNames = s.getParamNames := by
      unfold StepwiseEstimator.getParamNames
      rw [hsn, hpn]
    have hpnod2 : ∀ e ∈ s2.estimators, e.paramNames.Nodup := by
      intro e he
      obtain ⟨i, hi, hie⟩ := List.getElem_of_mem he
      have h2 : s2.estimators[i]? = some e := by
        rw [List.getElem?_eq_getElem hi, hie]
      rw [hElem i] at h2
      rcases hei : s.estimators[i]? with _ | ei
      · rw [hei] at h2
        exact Option.noConfusion h2
      · rw [hei] at h2
        have h3 := Option.some.inj h2
        rw [← h3]
        exact hpnod ei (List.getElem?_mem hei)
    have hnd2 : s2.step_names.Nodup := by rw [hsn]; exact hnd
    have hsafe2 : ∀ nm ∈ s2.step_names,
        hasDUS nm = false ∧ endsU nm = false := by
      rw [hsn]; exact hsafe
    have hget2 := get_params_eq s2 deep hnd2 hsafe2 hpnod2
    rw [hget2, hd]
    rw [hnames]
    congr 1
    refine List.map_congr_left ?_
    intro n hn
    exact congrArg (fun v => (n, v)) (valOf_congr s2 s _ _ hsn hgp n)

/-- A concrete sub-estimator for the C9 witness: one parameter x worth
3, get_params reads the state, set_params overwrites it. -/
def subC9 : SubEstimator :=
  { defaultSub with
    paramNames := [['x']]
    paramState := [(['x'], PyVal.vNum 3)]
    getParamsFun := fun st _ => st
    setParamsFun := fun _ dd => dd }

/-- A concrete one-step composite for the C9 witness. -/
def swC9 : StepwiseEstimator :=
  ⟨[['a']], [subC9], [[0]], [0], Option.none, Option.none⟩

/-- Witness for the amended C9: the concrete composite's get_params,
fed back through set_params, leaves get_params unchanged. -/
theorem sw_namespace_roundtrip_witness :
    ∃ d s', StepwiseEstimator.get_params swC9 true = .ok d ∧
      StepwiseEstimator.set_params swC9 d = .ok s' ∧
      StepwiseEstimator.get_params s' true = .ok d := by
  have h := sw_namespace_roundtrip swC9 true (by decide) (by decide)
    (by decide) rfl (by decide)
  obtain ⟨d0, hd0⟩ : ∃ d0, swC9.get_params true = .ok d0 := ⟨_, rfl⟩
  obtain ⟨s', h1, h2⟩ := h.2 d0 hd0
  exact ⟨d0, s', hd0, h1, h2⟩

end Sparselm
